import Mathlib

/-!
# Verification of the ctc exchange core

A shallow embedding of the ctc trading-competition exchange core:
the per-symbol matching engine (`src/backend/src/exchange/engine.py`),
the order-book manager (`src/backend/src/exchange/manager.py`), the
position/PnL accounting, the order-entry capping service
(`src/backend/src/core/orders.py`) and the admin/cancel endpoints of
`src/backend/src/app/main.py`.

Machine integers are modelled as `Nat`/`Int`; prices as `ℚ` tick counts
(`price_int` in the source); fallible endpoints return `Except`.

The matching pass itself is executed by the external `liquibook` library,
which is not part of the repository sources; it is modelled from the
specification (§4.B of the spec). Everything else is translated from the
Python source.
-/

namespace CTC

/-- Order side, `SimpleOrder.side` in `engine.py` (`"buy"`/`"sell"`). -/
inductive Side where
  | buy
  | sell
deriving Repr, DecidableEq

/-- The opposite side, as computed in `_self_trade_prevent`
(`opposite_side = "sell" if incoming.side == "buy" else "buy"`). -/
def Side.opp : Side → Side
  | .buy => .sell
  | .sell => .buy

/-- A resting book entry: the engine-visible data of an open limit order
(`_OrderMeta` restricted to the fields the book logic reads: order id,
team id, side, integer price, open quantity). Prices are integer ticks
(`price_int = round(price * PRICE_SCALE)`). -/
structure Entry where
  oid : Nat
  tid : Nat
  side : Side
  price : Nat
  qty : Nat
deriving Repr, DecidableEq

/-- The incoming order handed to `MatchingEngine.add_order`
(`SimpleOrder` in `engine.py`); `price = none` is a market order. -/
structure Incoming where
  oid : Nat
  tid : Nat
  side : Side
  price : Option Nat
  qty : Nat
deriving Repr, DecidableEq

/-- A trade event, `SimpleTrade` in `engine.py`. The trade price is the
resting entry's integer price. -/
structure SimpleTrade where
  buyerOid : Nat
  sellerOid : Nat
  qty : Nat
  price : Nat
deriving Repr, DecidableEq

/-- A cancel event, `SimpleCancel` in `engine.py`
(reason is always `self_trade_prevention` for emitted cancels). -/
structure SimpleCancel where
  oid : Nat
  qty : Nat
deriving Repr, DecidableEq

/-- `_price_to_int` in `engine.py`: a market order (price `None`)
carries the sentinel tick value `0`. -/
def priceToInt : Option Nat → Nat
  | none => 0
  | some p => p

/-- `_prices_cross` in `engine.py`: the market sentinel `0` crosses
everything; a buy crosses resting prices `≤` its own, a sell resting
prices `≥` its own. -/
def pricesCross (side : Side) (incoming resting : Nat) : Bool :=
  if incoming = 0 then true
  else match side with
    | .buy => resting ≤ incoming
    | .sell => incoming ≤ resting

/-- The candidate test of the STP walk in `_self_trade_prevent`:
a live resting entry of the incoming order's team on the opposite side
whose price crosses the incoming price. -/
def isStpCandidate (inc : Incoming) (e : Entry) : Bool :=
  e.tid = inc.tid && e.side = inc.side.opp
    && pricesCross inc.side (priceToInt inc.price) e.price && decide (0 < e.qty)

/-- The result of the STP pre-pass walk: the book with the visited
candidate entries removed, the emitted cancels, the partially-cancelled
remainders to requeue (`requeue` in the source), and the unconsumed STP
target (`remaining_qty`). -/
structure StpResult where
  book : List Entry
  cancels : List SimpleCancel
  requeue : List Entry
  target : Nat
deriving Repr, DecidableEq

/-- The STP pre-pass walk of `_self_trade_prevent` (`engine.py`).
The book is kept in entry-creation order, which realises the iteration
order of the Python set `team_orders[opposite_side]` of small liquibook
ids. A fully-consumed candidate is cancelled outright; a
partially-consumed one is cancelled and its remainder requeued after
the matching pass. -/
def stpWalk (inc : Incoming) : List Entry → Nat → StpResult
  | [], target => ⟨[], [], [], target⟩
  | e :: rest, target =>
    if target = 0 then ⟨e :: rest, [], [], 0⟩
    else if isStpCandidate inc e then
      let c := min target e.qty
      let r := stpWalk inc rest (target - c)
      if c = e.qty then
        ⟨r.book, ⟨e.oid, c⟩ :: r.cancels, r.requeue, r.target⟩
      else
        ⟨r.book, ⟨e.oid, c⟩ :: r.cancels,
          { e with qty := e.qty - c } :: r.requeue, r.target⟩
    else
      let r := stpWalk inc rest target
      ⟨e :: r.book, r.cancels, r.requeue, r.target⟩

/-- Opposite-side entries in matching priority order. Modelled from the
spec: the matching pass peeks the best opposite level (lowest ask for an
incoming buy, highest bid for an incoming sell) with FIFO time priority
within a level; realised as a stable sort of the opposite side by price. -/
def sortOpp (side : Side) (l : List Entry) : List Entry :=
  match side with
  | .buy => l.insertionSort (fun a b => a.price ≤ b.price)
  | .sell => l.insertionSort (fun a b => b.price ≤ a.price)

/-- The trade event for an incoming order matching a resting entry:
buyer/seller ids assigned by the incoming side, executed at the resting
entry's price (`_handle_fill` in `engine.py`). -/
def mkTrade (inc : Incoming) (e : Entry) (q : Nat) : SimpleTrade :=
  match inc.side with
  | .buy => ⟨inc.oid, e.oid, q, e.price⟩
  | .sell => ⟨e.oid, inc.oid, q, e.price⟩

/-- The result of the matching pass: the trades, the per-entry fill
quantities, and the incoming order's unfilled remainder. -/
structure MatchResult where
  trades : List SimpleTrade
  fills : List (Nat × Nat)
  rem : Nat
deriving Repr, DecidableEq

/-- Modelled from the spec: the matching pass of `add_order` (§4.B.3),
executed in the source by the external `liquibook` book. Walks the
opposite-side entries in priority order while the incoming order has
remaining quantity: stops at the first entry whose price does not satisfy
the incoming limit, skips entries of the incoming order's own team
(they must not produce a trade), and otherwise trades
`min(incoming.remaining, entry.remaining)` at the resting price. -/
def matchFold (inc : Incoming) : List Entry → Nat → MatchResult
  | [], q => ⟨[], [], q⟩
  | e :: rest, q =>
    if q = 0 then ⟨[], [], 0⟩
    else if pricesCross inc.side (priceToInt inc.price) e.price then
      if e.tid = inc.tid then matchFold inc rest q
      else
        let t := min q e.qty
        let r := matchFold inc rest (q - t)
        ⟨mkTrade inc e t :: r.trades, (e.oid, t) :: r.fills, r.rem⟩
    else ⟨[], [], q⟩

/-- Total fill quantity charged to one order id by a fill list. -/
def fillsFor (fills : List (Nat × Nat)) (oid : Nat) : Nat :=
  (fills.filter (fun p => p.1 = oid)).foldl (fun a p => a + p.2) 0

/-- Apply the matching-pass fills to the book: each filled entry's open
quantity is decremented and fully-consumed entries are removed
(`_handle_fill` decrements `open_qty` and pops entries at zero). -/
def applyFillsToBook (fills : List (Nat × Nat)) (book : List Entry) : List Entry :=
  book.filterMap (fun e =>
    if e.qty ≤ fillsFor fills e.oid then none
    else some { e with qty := e.qty - fillsFor fills e.oid })

/-- The quantity the incoming order carries into the matching pass.
`_self_trade_prevent` reduces the incoming order's quantity by the STP
target it consumed only when the order is a market order
(`if incoming.price is None: incoming.quantity = max(remaining_qty, 0)`);
a limit order enters matching with its full quantity. -/
def stpAdjustedQty (inc : Incoming) (targetLeft : Nat) : Nat :=
  if inc.price = none then targetLeft else inc.qty

/-- The result of `MatchingEngine.add_order`: the post-call book and the
two event lists returned to the manager. -/
structure AddResult where
  book : List Entry
  trades : List SimpleTrade
  cancels : List SimpleCancel
deriving Repr, DecidableEq

/-- `MatchingEngine.add_order` (`engine.py`): the STP pre-pass over the
incoming team's crossing opposite-side entries, then the matching pass
(modelled from the spec, executed by `liquibook` in the source) against
the remaining book, then the partially-STP-cancelled self remainders are
requeued (`_requeue_orders`) and a limit remainder of the incoming order
is re-added at the tail; a market remainder is discarded and never
rests. -/
def addOrder (book : List Entry) (inc : Incoming) : AddResult :=
  let s := stpWalk inc book inc.qty
  let q1 := stpAdjustedQty inc s.target
  let m := matchFold inc (sortOpp inc.side (s.book.filter (fun e => e.side = inc.side.opp))) q1
  let b2 := applyFillsToBook m.fills s.book
  let b3 := b2 ++ s.requeue
  let b4 :=
    if inc.price ≠ none ∧ 0 < m.rem then
      b3 ++ [⟨inc.oid, inc.tid, inc.side, priceToInt inc.price, m.rem⟩]
    else b3
  ⟨b4, m.trades, s.cancels⟩

/-- Team lookup over the inputs of one `add_order` call: the incoming
order's id resolves to its team, any other id to the team of its book
entry. -/
def findTeam (book : List Entry) (inc : Incoming) (oid : Nat) : Option Nat :=
  if oid = inc.oid then some inc.tid
  else (book.find? (fun e => e.oid = oid)).map (fun e => e.tid)

/-- Persisted order status (`orders.status` in `models.py`);
`partFilled` renders the source's `"partial"` value. -/
inductive OStatus where
  | pending
  | partFilled
  | filled
  | cancelled
deriving Repr, DecidableEq

/-- Persisted order type (`orders.order_type`). -/
inductive OType where
  | market
  | limit
deriving Repr, DecidableEq

/-- A persisted order row (`Order` in `db/models.py`, the fields the
exchange core reads and writes). Prices are integer ticks; `price = none`
is a market order's null price. -/
structure OrderRow where
  oid : Nat
  tid : Nat
  otype : OType
  side : Side
  quantity : Nat
  filled : Nat
  price : Option Nat
  status : OStatus
deriving Repr, DecidableEq

/-- `ExchangeManager._apply_fill_to_order` (`manager.py`): add the trade
quantity to `filled_quantity`; status becomes `filled` when the row is
fully consumed, else `partial`. -/
def applyFillToOrder (r : OrderRow) (q : Nat) : OrderRow :=
  let f := r.filled + q
  { r with filled := f, status := if r.quantity ≤ f then .filled else .partFilled }

/-- The STP cancel branch of `place_and_match` (`manager.py`): the
cancelled quantity is added to `filled_quantity` (forced consumption);
status becomes `cancelled` when the row is fully consumed, else
`partial`. -/
def applyCancelToOrder (r : OrderRow) (q : Nat) : OrderRow :=
  let f := r.filled + q
  { r with filled := f, status := if r.quantity ≤ f then .cancelled else .partFilled }

/-- `ExchangeManager._update_new_order_status` (`manager.py`):
a market order is finalised as `filled` or `cancelled`; a limit order
as `filled`, `partial` or `pending`. -/
def updateNewOrderStatus (r : OrderRow) : OrderRow :=
  match r.otype with
  | .market =>
    { r with status := if r.quantity ≤ r.filled then .filled else .cancelled }
  | .limit =>
    { r with status :=
        if r.quantity ≤ r.filled then .filled
        else if 0 < r.filled then .partFilled else .pending }

/-- The engine entry rebuilt from a persisted row by
`load_open_orders`/`_populate_state_from_orders` (`manager.py`): open
(`pending`/`partial`) non-market rows with a price and positive
remaining quantity rest in the book; everything else is skipped. -/
def entryOfRow (r : OrderRow) : Option Entry :=
  match r.price with
  | none => none
  | some p =>
    if (r.status = .pending ∨ r.status = .partFilled) ∧ r.otype = .limit then
      if r.filled < r.quantity then some ⟨r.oid, r.tid, r.side, p, r.quantity - r.filled⟩
      else none
    else none

/-- `ensure_symbol_loaded` with `exclude_order_ids = {new order id}`:
the book is rebuilt from the open rows of the symbol, skipping the
just-persisted new row. -/
def loadBook (rows : List OrderRow) (excludeOid : Nat) : List Entry :=
  rows.filterMap (fun r => if r.oid = excludeOid then none else entryOfRow r)

/-- A durable mutation applied to one order row by `place_and_match`:
a trade fill or an STP cancellation. -/
inductive Ev where
  | fill (oid : Nat) (qty : Nat)
  | cancel (oid : Nat) (qty : Nat)
deriving Repr, DecidableEq

/-- The order id an event targets. -/
def Ev.oid : Ev → Nat
  | .fill o _ => o
  | .cancel o _ => o

/-- The quantity an event carries. -/
def Ev.qty : Ev → Nat
  | .fill _ q => q
  | .cancel _ q => q

/-- The durable mutations of one `place_and_match` call in source order:
for each engine trade a buyer fill then a seller fill, then one cancel
per engine cancel. -/
def evsOf (trades : List SimpleTrade) (cancels : List SimpleCancel) : List Ev :=
  (trades.flatMap (fun t => [.fill t.buyerOid t.qty, .fill t.sellerOid t.qty]))
    ++ cancels.map (fun c => .cancel c.oid c.qty)

/-- Apply one event to one row (identity on rows with a different id). -/
def applyEvRow (r : OrderRow) : Ev → OrderRow
  | .fill o q => if r.oid = o then applyFillToOrder r q else r
  | .cancel o q => if r.oid = o then applyCancelToOrder r q else r

/-- Apply a list of events to the store. -/
def applyEvs (rows : List OrderRow) (evs : List Ev) : List OrderRow :=
  evs.foldl (fun acc ev => acc.map (fun r => applyEvRow r ev)) rows

/-- Update the row with a given id in the store. -/
def updateRow (rows : List OrderRow) (oid : Nat) (f : OrderRow → OrderRow) :
    List OrderRow :=
  rows.map (fun r => if r.oid = oid then f r else r)

/-- The incoming engine order built from the new row by
`place_and_match` (`remaining_qty = quantity - filled_quantity`). -/
def incomingOfRow (r : OrderRow) : Incoming :=
  ⟨r.oid, r.tid, r.side, r.price, r.quantity - r.filled⟩

/-- The result of one `place_and_match` call: the mutated store, the
post-call engine book, and the engine event lists. -/
structure PMResult where
  rows : List OrderRow
  book : List Entry
  trades : List SimpleTrade
  cancels : List SimpleCancel
deriving Repr, DecidableEq

/-- `ExchangeManager.place_and_match` (`manager.py`): rebuild the book
from the store excluding the new row, run `add_order`, apply every
trade's fills to the buyer and seller rows, apply every STP cancel to
its row, and finalise the new row's status by its order type. -/
def placeAndMatch (rows : List OrderRow) (newRow : OrderRow) : PMResult :=
  let book := loadBook rows newRow.oid
  let res := addOrder book (incomingOfRow newRow)
  let rows1 := applyEvs rows (evsOf res.trades res.cancels)
  let rows2 := updateRow rows1 newRow.oid updateNewOrderStatus
  ⟨rows2, res.book, res.trades, res.cancels⟩

/-- Fetch the row with a given id from the store. -/
def getRow (rows : List OrderRow) (oid : Nat) : Option OrderRow :=
  rows.find? (fun r => r.oid = oid)

/-- A position row (`Position` in `db/models.py`): signed quantity,
optional weighted-average cost, realised PnL. Monetary values are
modelled as `ℚ` (the source uses Python floats / `Numeric(20, 6)`). -/
structure Position where
  qty : Int
  avg : Option ℚ
  realized : ℚ
deriving Repr, DecidableEq

/-- `ExchangeManager._apply_trade_to_position` (`manager.py`): apply one
trade leg of quantity `q` at price `p` to a `(team, symbol)` position.
A buy adds to a long at weighted-average cost, or covers a short
realising `(avg - p) * cover` and flips into a long of the remainder; a
sell is the mirror. -/
def applyTradeToPosition (pos : Position) (side : Side) (q : Int) (p : ℚ) : Position :=
  match side with
  | .buy =>
    if 0 ≤ pos.qty then
      match pos.avg with
      | none => ⟨pos.qty + q, some p, pos.realized⟩
      | some a =>
        if pos.qty = 0 then ⟨pos.qty + q, some p, pos.realized⟩
        else
          ⟨pos.qty + q,
            some ((a * (pos.qty : ℚ) + p * (q : ℚ)) / ((pos.qty : ℚ) + (q : ℚ))),
            pos.realized⟩
    else
      let cover := min q (-pos.qty)
      let realized :=
        match pos.avg with
        | some a => pos.realized + (a - p) * (cover : ℚ)
        | none => pos.realized
      let qty := pos.qty + cover
      let avg := if qty = 0 then none else pos.avg
      let rem := q - cover
      if 0 < rem then ⟨rem, some p, realized⟩ else ⟨qty, avg, realized⟩
  | .sell =>
    if pos.qty ≤ 0 then
      match pos.avg with
      | none => ⟨pos.qty - q, some p, pos.realized⟩
      | some a =>
        if pos.qty = 0 then ⟨pos.qty - q, some p, pos.realized⟩
        else
          ⟨pos.qty - q,
            some ((a * ((-pos.qty : Int) : ℚ) + p * (q : ℚ)) / (((-pos.qty : Int) : ℚ) + (q : ℚ))),
            pos.realized⟩
    else
      let sold := min q pos.qty
      let realized :=
        match pos.avg with
        | some a => pos.realized + (p - a) * (sold : ℚ)
        | none => pos.realized
      let qty := pos.qty - sold
      let avg := if qty = 0 then none else pos.avg
      let rem := q - sold
      if 0 < rem then ⟨-rem, some p, realized⟩ else ⟨qty, avg, realized⟩

/-- The per-position settlement step of `admin_settle_symbol`
(`app/main.py`): positions with zero quantity or null average are
skipped; otherwise `(P - avg) * qty` (long) or `(avg - P) * (-qty)`
(short) is added to realised PnL, the quantity is zeroed and the
average nulled. -/
def settlePosition (pos : Position) (P : ℚ) : Position :=
  match pos.avg with
  | none => pos
  | some a =>
    if pos.qty = 0 then pos
    else
      ⟨0, none,
        pos.realized + (if 0 < pos.qty then (P - a) * (pos.qty : ℚ)
                        else (a - P) * ((-pos.qty : Int) : ℚ))⟩

/-- The position law of spec §8.8: the average price is null exactly on
a flat position. -/
def posInv (pos : Position) : Prop :=
  pos.avg = none ↔ pos.qty = 0

/-- A position-limit row (`PositionLimit` in `db/models.py`). -/
structure PositionLimitRow where
  maxPosition : Int
  maxOrderSize : Int
deriving Repr, DecidableEq

/-- `OrderService._apply_position_limits` (`core/orders.py`): cap the
requested quantity by `max_order_size`, then by the side's position
headroom (`max_position - current` for a buy, `max_position + current`
for a sell, floored at zero). Returns the capped quantity and whether a
warning message is produced (iff the cap changed the quantity). -/
def applyPositionLimits (limit : Option PositionLimitRow) (currentQty : Int)
    (side : Side) (quantity : Int) : Int × Bool :=
  match limit with
  | none => (quantity, false)
  | some l =>
    let q1 := min quantity l.maxOrderSize
    let allowed :=
      match side with
      | .buy => l.maxPosition - currentQty
      | .sell => l.maxPosition + currentQty
    let q2 := min q1 (max 0 allowed)
    (q2, decide (q2 ≠ quantity))

/-- `OrderService.place_order` (`core/orders.py`): apply the caps, then
persist the order with the capped quantity, zero fills and status
`pending`. Returns the row and the warning flag. -/
def placeOrderService (oid tid : Nat) (limit : Option PositionLimitRow)
    (currentQty : Int) (otype : OType) (side : Side) (quantity : Int)
    (price : Option Nat) : OrderRow × Bool :=
  let c := applyPositionLimits limit currentQty side quantity
  (⟨oid, tid, otype, side, c.1.toNat, 0, price, .pending⟩, c.2)

/-- The persisted symbol state read and written by the trading-control
endpoints in `app/main.py` (columns of `symbols` incl. the
`add_trading_controls` migration); `code`, `name` and `tickSize` stand
for the fields the endpoints never touch. -/
structure SymbolState where
  code : Nat
  name : Nat
  tickSize : ℚ
  tradingHalted : Bool
  settlementActive : Bool
  settlementPrice : Option ℚ
  settlementAt : Option Nat
deriving Repr, DecidableEq

/-- The per-symbol mutation of `admin_start_symbols` (`app/main.py`):
un-halt trading and clear the whole settlement state
(`settlement_active`, `settlement_price` and `settlement_at`). -/
def adminStartSymbol (s : SymbolState) : SymbolState :=
  { s with tradingHalted := false, settlementActive := false,
           settlementPrice := none, settlementAt := none }

/-- `admin_start_symbols` applied to its selected symbols together with
the position table, which the endpoint never reads or writes. -/
def adminStartSymbols (symbols : List SymbolState) (positions : List Position) :
    List SymbolState × List Position :=
  (symbols.map adminStartSymbol, positions)

/-- The store state the `cancel_order` endpoint touches: the order rows
and the set of order ids resting in the symbol's book. -/
structure CancelState where
  rows : List OrderRow
  bookIds : List Nat
deriving Repr, DecidableEq

/-- The `cancel_order` endpoint (`app/main.py`, DELETE
`/orders/{order_id}`): a missing id raises 404; otherwise the row's
status is set to `cancelled` unconditionally and the id is removed from
the book (`remove_from_book` in `manager.py`). -/
def cancelOrderEndpoint (st : CancelState) (oid : Nat) : Except Unit CancelState :=
  match st.rows.find? (fun r => r.oid = oid) with
  | none => .error ()
  | some _ =>
    .ok ⟨updateRow st.rows oid (fun r => { r with status := .cancelled }),
         st.bookIds.filter (fun i => i ≠ oid)⟩

/-- Total traded quantity of a trade list. -/
def tradesQty (ts : List SimpleTrade) : Nat :=
  (ts.map (fun t => t.qty)).sum

/-- Total cancelled quantity of a cancel list. -/
def cancelsQty (cs : List SimpleCancel) : Nat :=
  (cs.map (fun c => c.qty)).sum

/-- Total open quantity a book holds under one order id. -/
def qtySum (l : List Entry) (o : Nat) : Nat :=
  ((l.filter (fun e => e.oid = o)).map (fun e => e.qty)).sum

/-- Total event quantity charged to one order id. -/
def evTotal (evs : List Ev) (o : Nat) : Nat :=
  ((evs.filter (fun ev => ev.oid = o)).map Ev.qty).sum

/-- The order-row invariant actually maintained by the manager:
fills never exceed the quantity, a `filled` row is fully consumed, and a
`partial` row is strictly between empty and full. -/
def rowInv (r : OrderRow) : Prop :=
  r.filled ≤ r.quantity
    ∧ (r.status = .filled → r.filled = r.quantity)
    ∧ (r.status = .partFilled → 0 < r.filled ∧ r.filled < r.quantity)

instance (r : OrderRow) : Decidable (rowInv r) := by
  unfold rowInv; infer_instance

theorem stpWalk_book_mem (inc : Incoming) :
    ∀ (book : List Entry) (t : Nat), ∀ e ∈ (stpWalk inc book t).book, e ∈ book := by
  intro book
  induction book with
  | nil => intro t e he; simp [stpWalk] at he
  | cons a rest ih =>
    intro t e he
    by_cases ht : t = 0
    · simpa [stpWalk, ht] using he
    · by_cases hc : isStpCandidate inc a
      · by_cases hq : min t a.qty = a.qty
        · simp only [stpWalk, if_neg ht, if_pos hc, if_pos hq] at he
          exact List.mem_cons_of_mem a (ih _ e he)
        · simp only [stpWalk, if_neg ht, if_pos hc, if_neg hq] at he
          exact List.mem_cons_of_mem a (ih _ e he)
      · simp only [stpWalk, if_neg ht, if_neg hc] at he
        rcases List.mem_cons.mp he with h | h
        · exact h ▸ List.mem_cons_self a rest
        · exact List.mem_cons_of_mem a (ih _ e h)

/-- Total cancelled quantity a cancel list charges to one order id. -/
def cancelsFor (cs : List SimpleCancel) (o : Nat) : Nat :=
  ((cs.filter (fun c => c.oid = o)).map (fun c => c.qty)).sum

/-- Total fill quantity a trade list charges to one order id
(buyer-side and seller-side fills both count). -/
def tradesFillFor (ts : List SimpleTrade) (o : Nat) : Nat :=
  (ts.map (fun t =>
    (if t.buyerOid = o then t.qty else 0) + (if t.sellerOid = o then t.qty else 0))).sum

theorem qtySum_cons (a : Entry) (l : List Entry) (o : Nat) :
    qtySum (a :: l) o = (if a.oid = o then a.qty else 0) + qtySum l o := by
  by_cases h : a.oid = o <;> simp [qtySum, List.filter_cons, h]

theorem cancelsFor_cons (a : SimpleCancel) (l : List SimpleCancel) (o : Nat) :
    cancelsFor (a :: l) o = (if a.oid = o then a.qty else 0) + cancelsFor l o := by
  by_cases h : a.oid = o <;> simp [cancelsFor, List.filter_cons, h]

theorem tradesFillFor_cons (a : SimpleTrade) (l : List SimpleTrade) (o : Nat) :
    tradesFillFor (a :: l) o =
      ((if a.buyerOid = o then a.qty else 0) + (if a.sellerOid = o then a.qty else 0))
        + tradesFillFor l o := by
  simp [tradesFillFor]

theorem stpWalk_cancels_sound (inc : Incoming) :
    ∀ (book : List Entry) (t : Nat), ∀ c ∈ (stpWalk inc book t).cancels,
      ∃ e ∈ book, c.oid = e.oid ∧ 0 < c.qty ∧ c.qty ≤ e.qty := by
  intro book
  induction book with
  | nil => intro t c hc; simp [stpWalk] at hc
  | cons a rest ih =>
    intro t c hc
    by_cases ht : t = 0
    · simp [stpWalk, ht] at hc
    · by_cases hcand : isStpCandidate inc a
      · have haq : 0 < a.qty := by
          have := hcand
          unfold isStpCandidate at this
          simp only [Bool.and_eq_true, decide_eq_true_eq] at this
          exact this.2
        have hmin : 0 < min t a.qty := by
          exact lt_min (Nat.pos_of_ne_zero ht) haq
        by_cases hq : min t a.qty = a.qty
        · simp only [stpWalk, if_neg ht, if_pos hcand, if_pos hq] at hc
          rcases List.mem_cons.mp hc with h | h
          · refine ⟨a, List.mem_cons_self a rest, ?_⟩
            subst h
            exact ⟨rfl, hmin, Nat.min_le_right _ _⟩
          · obtain ⟨e, he, h1, h2, h3⟩ := ih _ c h
            exact ⟨e, List.mem_cons_of_mem a he, h1, h2, h3⟩
        · simp only [stpWalk, if_neg ht, if_pos hcand, if_neg hq] at hc
          rcases List.mem_cons.mp hc with h | h
          · refine ⟨a, List.mem_cons_self a rest, ?_⟩
            subst h
            exact ⟨rfl, hmin, Nat.min_le_right _ _⟩
          · obtain ⟨e, he, h1, h2, h3⟩ := ih _ c h
            exact ⟨e, List.mem_cons_of_mem a he, h1, h2, h3⟩
      · simp only [stpWalk, if_neg ht, if_neg hcand] at hc
        obtain ⟨e, he, h1, h2, h3⟩ := ih _ c hc
        exact ⟨e, List.mem_cons_of_mem a he, h1, h2, h3⟩

theorem stpWalk_qtySum (inc : Incoming) :
    ∀ (book : List Entry) (t o : Nat),
      cancelsFor (stpWalk inc book t).cancels o + qtySum (stpWalk inc book t).book o
        ≤ qtySum book o := by
  intro book
  induction book with
  | nil => intro t o; simp [stpWalk, cancelsFor, qtySum]
  | cons a rest ih =>
    intro t o
    by_cases ht : t = 0
    · simp [stpWalk, ht, cancelsFor]
    · by_cases hcand : isStpCandidate inc a
      · by_cases hq : min t a.qty = a.qty
        · simp only [stpWalk, if_neg ht, if_pos hcand, if_pos hq]
          have := ih (t - min t a.qty) o
          rw [cancelsFor_cons, qtySum_cons]
          have hle : min t a.qty ≤ a.qty := Nat.min_le_right _ _
          dsimp only
          split_ifs <;> omega
        · simp only [stpWalk, if_neg ht, if_pos hcand, if_neg hq]
          have := ih (t - min t a.qty) o
          rw [cancelsFor_cons, qtySum_cons]
          have hle : min t a.qty ≤ a.qty := Nat.min_le_right _ _
          dsimp only
          split_ifs <;> omega
      · simp only [stpWalk, if_neg ht, if_neg hcand]
        have := ih t o
        rw [qtySum_cons, qtySum_cons]
        split_ifs <;> omega

theorem stpWalk_conservation (inc : Incoming) :
    ∀ (book : List Entry) (t : Nat),
      cancelsQty (stpWalk inc book t).cancels + (stpWalk inc book t).target = t := by
  intro book
  induction book with
  | nil => intro t; simp [stpWalk, cancelsQty]
  | cons a rest ih =>
    intro t
    by_cases ht : t = 0
    · simp [stpWalk, ht, cancelsQty]
    · by_cases hcand : isStpCandidate inc a
      · have := ih (t - min t a.qty)
        have hle : min t a.qty ≤ t := Nat.min_le_left _ _
        by_cases hq : min t a.qty = a.qty
        · simp only [stpWalk, if_neg ht, if_pos hcand, if_pos hq, cancelsQty,
            List.map_cons, List.sum_cons] at *
          omega
        · simp only [stpWalk, if_neg ht, if_pos hcand, if_neg hq, cancelsQty,
            List.map_cons, List.sum_cons] at *
          omega
      · simp only [stpWalk, if_neg ht, if_neg hcand]
        exact ih t

theorem stpWalk_total (inc : Incoming) :
    ∀ (book : List Entry) (t : Nat),
      cancelsQty (stpWalk inc book t).cancels =
        min t (((book.filter (isStpCandidate inc)).map (fun e => e.qty)).sum) := by
  intro book
  induction book with
  | nil => intro t; simp [stpWalk, cancelsQty]
  | cons a rest ih =>
    intro t
    by_cases ht : t = 0
    · simp [stpWalk, ht, cancelsQty]
    · by_cases hcand : isStpCandidate inc a
      · have := ih (t - min t a.qty)
        by_cases hq : min t a.qty = a.qty
        · simp only [stpWalk, if_neg ht, if_pos hcand, if_pos hq, cancelsQty,
            List.map_cons, List.sum_cons, List.filter_cons_of_pos hcand] at *
          omega
        · simp only [stpWalk, if_neg ht, if_pos hcand, if_neg hq, cancelsQty,
            List.map_cons, List.sum_cons, List.filter_cons_of_pos hcand] at *
          have hlt : min t a.qty < a.qty := Nat.lt_of_le_of_ne (Nat.min_le_right _ _) hq
          omega
      · simp only [stpWalk, if_neg ht, if_neg hcand, List.filter_cons_of_neg hcand]
        exact ih t

theorem stpWalk_ids_take (inc : Incoming) :
    ∀ (book : List Entry) (t : Nat),
      (stpWalk inc book t).cancels.map (fun c => c.oid) =
        ((book.filter (isStpCandidate inc)).map (fun e => e.oid)).take
          (stpWalk inc book t).cancels.length := by
  intro book
  induction book with
  | nil => intro t; simp [stpWalk]
  | cons a rest ih =>
    intro t
    by_cases ht : t = 0
    · simp [stpWalk, ht]
    · by_cases hcand : isStpCandidate inc a
      · by_cases hq : min t a.qty = a.qty
        · simp only [stpWalk, if_neg ht, if_pos hcand, if_pos hq,
            List.filter_cons_of_pos hcand, List.map_cons, List.length_cons, List.take_succ_cons]
          exact congrArg _ (ih _)
        · simp only [stpWalk, if_neg ht, if_pos hcand, if_neg hq,
            List.filter_cons_of_pos hcand, List.map_cons, List.length_cons, List.take_succ_cons]
          exact congrArg _ (ih _)
      · simp only [stpWalk, if_neg ht, if_neg hcand, List.filter_cons_of_neg hcand]
        exact ih t

theorem stpWalk_requeue_mem (inc : Incoming) :
    ∀ (book : List Entry) (t : Nat), ∀ e ∈ (stpWalk inc book t).requeue,
      ∃ e0 ∈ book, e.oid = e0.oid := by
  intro book
  induction book with
  | nil => intro t e he; simp [stpWalk] at he
  | cons a rest ih =>
    intro t e he
    by_cases ht : t = 0
    · simp [stpWalk, ht] at he
    · by_cases hcand : isStpCandidate inc a
      · by_cases hq : min t a.qty = a.qty
        · simp only [stpWalk, if_neg ht, if_pos hcand, if_pos hq] at he
          obtain ⟨e0, he0, h⟩ := ih _ e he
          exact ⟨e0, List.mem_cons_of_mem a he0, h⟩
        · simp only [stpWalk, if_neg ht, if_pos hcand, if_neg hq] at he
          rcases List.mem_cons.mp he with h | h
          · exact ⟨a, List.mem_cons_self a rest, by rw [h]⟩
          · obtain ⟨e0, he0, hh⟩ := ih _ e h
            exact ⟨e0, List.mem_cons_of_mem a he0, hh⟩
      · simp only [stpWalk, if_neg ht, if_neg hcand] at he
        obtain ⟨e0, he0, h⟩ := ih _ e he
        exact ⟨e0, List.mem_cons_of_mem a he0, h⟩

theorem matchFold_trades_sound (inc : Incoming) :
    ∀ (l : List Entry) (q : Nat), ∀ t ∈ (matchFold inc l q).trades,
      ∃ e ∈ l, e.tid ≠ inc.tid ∧ ∃ qt, qt ≤ e.qty ∧ t = mkTrade inc e qt := by
  intro l
  induction l with
  | nil => intro q t ht; simp [matchFold] at ht
  | cons a rest ih =>
    intro q t ht
    by_cases hq : q = 0
    · simp [matchFold, hq] at ht
    · by_cases hcr : pricesCross inc.side (priceToInt inc.price) a.price = true
      · by_cases htm : a.tid = inc.tid
        · simp only [matchFold, if_neg hq, if_pos hcr, if_pos htm] at ht
          obtain ⟨e, he, h1, h2⟩ := ih _ t ht
          exact ⟨e, List.mem_cons_of_mem a he, h1, h2⟩
        · simp only [matchFold, if_neg hq, if_pos hcr, if_neg htm] at ht
          rcases List.mem_cons.mp ht with h | h
          · exact ⟨a, List.mem_cons_self a rest, htm, min q a.qty, Nat.min_le_right _ _, h⟩
          · obtain ⟨e, he, h1, h2⟩ := ih _ t h
            exact ⟨e, List.mem_cons_of_mem a he, h1, h2⟩
      · simp only [matchFold, if_neg hq, if_neg hcr] at ht
        simp at ht

theorem matchFold_conservation (inc : Incoming) :
    ∀ (l : List Entry) (q : Nat),
      tradesQty (matchFold inc l q).trades + (matchFold inc l q).rem = q := by
  intro l
  induction l with
  | nil => intro q; simp [matchFold, tradesQty]
  | cons a rest ih =>
    intro q
    by_cases hq : q = 0
    · simp [matchFold, hq, tradesQty]
    · by_cases hcr : pricesCross inc.side (priceToInt inc.price) a.price = true
      · by_cases htm : a.tid = inc.tid
        · simp only [matchFold, if_neg hq, if_pos hcr, if_pos htm]
          exact ih q
        · have := ih (q - min q a.qty)
          have hle : min q a.qty ≤ q := Nat.min_le_left _ _
          simp only [matchFold, if_neg hq, if_pos hcr, if_neg htm, tradesQty,
            List.map_cons, List.sum_cons] at *
          have hqt : (mkTrade inc a (min q a.qty)).qty = min q a.qty := by
            unfold mkTrade; cases inc.side <;> rfl
          rw [hqt]
          omega
      · simp only [matchFold, if_neg hq, if_neg hcr]
        simp [tradesQty]

theorem mkTrade_buyer_seller (inc : Incoming) (e : Entry) (qt : Nat) :
    ((mkTrade inc e qt).buyerOid = inc.oid ∧ (mkTrade inc e qt).sellerOid = e.oid)
      ∨ ((mkTrade inc e qt).buyerOid = e.oid ∧ (mkTrade inc e qt).sellerOid = inc.oid) := by
  unfold mkTrade; cases inc.side
  · exact Or.inl ⟨rfl, rfl⟩
  · exact Or.inr ⟨rfl, rfl⟩

theorem matchFold_fill_ne (inc : Incoming) :
    ∀ (l : List Entry) (q o : Nat), o ≠ inc.oid →
      tradesFillFor (matchFold inc l q).trades o ≤ qtySum l o := by
  intro l
  induction l with
  | nil => intro q o _; simp [matchFold, tradesFillFor]
  | cons a rest ih =>
    intro q o ho
    by_cases hq : q = 0
    · simp [matchFold, hq, tradesFillFor]
    · by_cases hcr : pricesCross inc.side (priceToInt inc.price) a.price = true
      · by_cases htm : a.tid = inc.tid
        · simp only [matchFold, if_neg hq, if_pos hcr, if_pos htm]
          calc tradesFillFor (matchFold inc rest q).trades o ≤ qtySum rest o := ih q o ho
            _ ≤ qtySum (a :: rest) o := by rw [qtySum_cons]; omega
        · simp only [matchFold, if_neg hq, if_pos hcr, if_neg htm]
          rw [tradesFillFor_cons, qtySum_cons]
          have hrec := ih (q - min q a.qty) o ho
          have hbs := mkTrade_buyer_seller inc a (min q a.qty)
          have hqt : (mkTrade inc a (min q a.qty)).qty = min q a.qty := by
            unfold mkTrade; cases inc.side <;> rfl
          have hle : min q a.qty ≤ a.qty := Nat.min_le_right _ _
          rcases hbs with ⟨hb, hs⟩ | ⟨hb, hs⟩ <;> rw [hb, hs, hqt] <;> split_ifs <;> omega
      · simp only [matchFold, if_neg hq, if_neg hcr]
        simp [tradesFillFor]

theorem matchFold_fill_inc (inc : Incoming) :
    ∀ (l : List Entry) (q : Nat), (∀ e ∈ l, e.oid ≠ inc.oid) →
      tradesFillFor (matchFold inc l q).trades inc.oid = tradesQty (matchFold inc l q).trades := by
  intro l
  induction l with
  | nil => intro q _; simp [matchFold, tradesFillFor, tradesQty]
  | cons a rest ih =>
    intro q hni
    by_cases hq : q = 0
    · simp [matchFold, hq, tradesFillFor, tradesQty]
    · by_cases hcr : pricesCross inc.side (priceToInt inc.price) a.price = true
      · by_cases htm : a.tid = inc.tid
        · simp only [matchFold, if_neg hq, if_pos hcr, if_pos htm]
          exact ih q (fun e he => hni e (List.mem_cons_of_mem a he))
        · simp only [matchFold, if_neg hq, if_pos hcr, if_neg htm]
          rw [tradesFillFor_cons]
          have hrec := ih (q - min q a.qty) (fun e he => hni e (List.mem_cons_of_mem a he))
          have hbs := mkTrade_buyer_seller inc a (min q a.qty)
          have hqt : (mkTrade inc a (min q a.qty)).qty = min q a.qty := by
            unfold mkTrade; cases inc.side <;> rfl
          have hne : a.oid ≠ inc.oid := hni a (List.mem_cons_self a rest)
          simp only [tradesQty, List.map_cons, List.sum_cons, hqt]
          rcases hbs with ⟨hb, hs⟩ | ⟨hb, hs⟩ <;> rw [hb, hs] <;>
            simp only [tradesQty] at hrec <;> split_ifs <;> omega
      · simp only [matchFold, if_neg hq, if_neg hcr]
        simp [tradesFillFor, tradesQty]

theorem matchFold_trades_pos (inc : Incoming) :
    ∀ (l : List Entry) (q : Nat), (∀ e ∈ l, 0 < e.qty) →
      ∀ t ∈ (matchFold inc l q).trades, 0 < t.qty := by
  intro l
  induction l with
  | nil => intro q _ t ht; simp [matchFold] at ht
  | cons a rest ih =>
    intro q hpos t ht
    by_cases hq : q = 0
    · simp [matchFold, hq] at ht
    · by_cases hcr : pricesCross inc.side (priceToInt inc.price) a.price = true
      · by_cases htm : a.tid = inc.tid
        · simp only [matchFold, if_neg hq, if_pos hcr, if_pos htm] at ht
          exact ih q (fun e he => hpos e (List.mem_cons_of_mem a he)) t ht
        · simp only [matchFold, if_neg hq, if_pos hcr, if_neg htm] at ht
          rcases List.mem_cons.mp ht with h | h
          · have hqt : (mkTrade inc a (min q a.qty)).qty = min q a.qty := by
              unfold mkTrade; cases inc.side <;> rfl
            rw [h, hqt]
            exact lt_min (Nat.pos_of_ne_zero hq) (hpos a (List.mem_cons_self a rest))
          · exact ih _ (fun e he => hpos e (List.mem_cons_of_mem a he)) t h
      · simp only [matchFold, if_neg hq, if_neg hcr] at ht
        simp at ht

theorem sortOpp_mem (s : Side) (l : List Entry) (e : Entry) :
    e ∈ sortOpp s l ↔ e ∈ l := by
  cases s <;> exact List.mem_insertionSort _

theorem sortOpp_qtySum (s : Side) (l : List Entry) (o : Nat) :
    qtySum (sortOpp s l) o = qtySum l o := by
  unfold qtySum sortOpp
  cases s <;> exact (((List.perm_insertionSort _ l).filter _).map _).sum_eq

theorem qtySum_filter_le (p : Entry → Bool) (l : List Entry) (o : Nat) :
    qtySum (l.filter p) o ≤ qtySum l o := by
  induction l with
  | nil => simp [qtySum]
  | cons a rest ih =>
    by_cases hp : p a = true
    · rw [List.filter_cons, if_pos hp, qtySum_cons, qtySum_cons]
      split_ifs <;> omega
    · rw [List.filter_cons, if_neg hp, qtySum_cons]
      split_ifs <;> omega

theorem cancelsFor_eq_zero {cs : List SimpleCancel} {o : Nat}
    (h : ∀ c ∈ cs, c.oid ≠ o) : cancelsFor cs o = 0 := by
  induction cs with
  | nil => simp [cancelsFor]
  | cons a rest ih =>
    rw [cancelsFor_cons]
    have ha := h a (List.mem_cons_self a rest)
    rw [if_neg ha, ih (fun c hc => h c (List.mem_cons_of_mem a hc))]

theorem addOrder_fill_bound (book : List Entry) (inc : Incoming) (o : Nat)
    (ho : o ≠ inc.oid) :
    tradesFillFor (addOrder book inc).trades o + cancelsFor (addOrder book inc).cancels o
      ≤ qtySum book o := by
  unfold addOrder
  simp only
  have h1 := matchFold_fill_ne inc
    (sortOpp inc.side ((stpWalk inc book inc.qty).book.filter (fun e => e.side = inc.side.opp)))
    (stpAdjustedQty inc (stpWalk inc book inc.qty).target) o ho
  rw [sortOpp_qtySum] at h1
  have h2 := qtySum_filter_le (fun e => e.side = inc.side.opp)
    (stpWalk inc book inc.qty).book o
  have h3 := stpWalk_qtySum inc book inc.qty o
  omega

theorem addOrder_inc_fill_bound (book : List Entry) (inc : Incoming)
    (hni : ∀ e ∈ book, e.oid ≠ inc.oid) :
    tradesFillFor (addOrder book inc).trades inc.oid ≤ inc.qty
      ∧ cancelsFor (addOrder book inc).cancels inc.oid = 0 := by
  constructor
  · unfold addOrder
    simp only
    have hni' : ∀ e ∈ sortOpp inc.side
        ((stpWalk inc book inc.qty).book.filter (fun e => e.side = inc.side.opp)),
        e.oid ≠ inc.oid := by
      intro e he
      rw [sortOpp_mem] at he
      exact hni e (stpWalk_book_mem inc book inc.qty e (List.mem_filter.mp he).1)
    rw [matchFold_fill_inc inc _ _ hni']
    have hcons := matchFold_conservation inc
      (sortOpp inc.side ((stpWalk inc book inc.qty).book.filter (fun e => e.side = inc.side.opp)))
      (stpAdjustedQty inc (stpWalk inc book inc.qty).target)
    have hq1 : stpAdjustedQty inc (stpWalk inc book inc.qty).target ≤ inc.qty := by
      unfold stpAdjustedQty
      have := stpWalk_conservation inc book inc.qty
      split_ifs <;> omega
    omega
  · apply cancelsFor_eq_zero
    intro c hc
    obtain ⟨e, he, h1, _, _⟩ := stpWalk_cancels_sound inc book inc.qty c hc
    rw [h1]
    exact hni e he

theorem evTotal_cons (a : Ev) (l : List Ev) (o : Nat) :
    evTotal (a :: l) o = (if a.oid = o then a.qty else 0) + evTotal l o := by
  by_cases h : a.oid = o <;> simp [evTotal, List.filter_cons, h]

theorem evTotal_append (l1 l2 : List Ev) (o : Nat) :
    evTotal (l1 ++ l2) o = evTotal l1 o + evTotal l2 o := by
  simp [evTotal, List.filter_append]

theorem evTotal_evsOf (ts : List SimpleTrade) (cs : List SimpleCancel) (o : Nat) :
    evTotal (evsOf ts cs) o = tradesFillFor ts o + cancelsFor cs o := by
  unfold evsOf
  rw [evTotal_append]
  congr 1
  · induction ts with
    | nil => simp [evTotal, tradesFillFor]
    | cons t ts ih =>
      rw [List.flatMap_cons, evTotal_append, tradesFillFor_cons, ih]
      congr 1
      rw [evTotal_cons, evTotal_cons]
      simp [evTotal, Ev.oid, Ev.qty]
  · induction cs with
    | nil => simp [evTotal, cancelsFor]
    | cons c cs ih =>
      rw [List.map_cons, evTotal_cons, cancelsFor_cons, ih]
      rfl

/-- The event sequence applied to a single row (the row-local view of
the trade-fill and cancel loops of `place_and_match`). -/
def applyEvsRow (r : OrderRow) (evs : List Ev) : OrderRow :=
  evs.foldl applyEvRow r

theorem applyEvs_eq_map (evs : List Ev) :
    ∀ rows : List OrderRow, applyEvs rows evs = rows.map (fun r => applyEvsRow r evs) := by
  induction evs with
  | nil => intro rows; simp [applyEvs, applyEvsRow]
  | cons ev evs ih =>
    intro rows
    show applyEvs (rows.map (fun r => applyEvRow r ev)) evs = _
    rw [ih, List.map_map]
    rfl

theorem applyEvRow_fields (r : OrderRow) (ev : Ev) :
    (applyEvRow r ev).oid = r.oid ∧ (applyEvRow r ev).quantity = r.quantity
      ∧ (applyEvRow r ev).otype = r.otype ∧ (applyEvRow r ev).tid = r.tid
      ∧ (applyEvRow r ev).side = r.side ∧ (applyEvRow r ev).price = r.price := by
  cases ev with
  | fill o q =>
    by_cases h : r.oid = o <;>
      simp [applyEvRow, applyFillToOrder, h]
  | cancel o q =>
    by_cases h : r.oid = o <;>
      simp [applyEvRow, applyCancelToOrder, h]

theorem applyFillToOrder_filled (r : OrderRow) (q : Nat) :
    (applyFillToOrder r q).filled = r.filled + q := by
  simp [applyFillToOrder]

theorem applyCancelToOrder_filled (r : OrderRow) (q : Nat) :
    (applyCancelToOrder r q).filled = r.filled + q := by
  simp [applyCancelToOrder]

theorem applyFillToOrder_inv (r : OrderRow) (q : Nat) (hq : 0 < q)
    (hb : r.filled + q ≤ r.quantity) : rowInv (applyFillToOrder r q) := by
  unfold rowInv
  simp only [applyFillToOrder]
  refine ⟨hb, ?_, ?_⟩
  · intro hst
    by_cases hc : r.quantity ≤ r.filled + q
    · omega
    · rw [if_neg hc] at hst
      simp at hst
  · intro hst
    by_cases hc : r.quantity ≤ r.filled + q
    · rw [if_pos hc] at hst
      simp at hst
    · omega

theorem applyCancelToOrder_inv (r : OrderRow) (q : Nat) (hq : 0 < q)
    (hb : r.filled + q ≤ r.quantity) : rowInv (applyCancelToOrder r q) := by
  unfold rowInv
  simp only [applyCancelToOrder]
  refine ⟨hb, ?_, ?_⟩
  · intro hst
    by_cases hc : r.quantity ≤ r.filled + q
    · rw [if_pos hc] at hst
      simp at hst
    · rw [if_neg hc] at hst
      simp at hst
  · intro hst
    by_cases hc : r.quantity ≤ r.filled + q
    · rw [if_pos hc] at hst
      simp at hst
    · omega

theorem applyEvsRow_inv (evs : List Ev) :
    ∀ r : OrderRow, r.filled + evTotal evs r.oid ≤ r.quantity →
      (∀ ev ∈ evs, 0 < ev.qty) → rowInv r →
      rowInv (applyEvsRow r evs)
        ∧ (applyEvsRow r evs).oid = r.oid
        ∧ (applyEvsRow r evs).quantity = r.quantity
        ∧ (applyEvsRow r evs).otype = r.otype
        ∧ (applyEvsRow r evs).filled = r.filled + evTotal evs r.oid := by
  induction evs with
  | nil =>
    intro r _ _ hinv
    refine ⟨hinv, rfl, rfl, rfl, ?_⟩
    simp [applyEvsRow, evTotal]
  | cons ev evs ih =>
    intro r hb hpos hinv
    have hposev : 0 < ev.qty := hpos ev (List.mem_cons_self ev evs)
    have hb' := hb
    rw [evTotal_cons] at hb'
    have hstep : applyEvsRow r (ev :: evs) = applyEvsRow (applyEvRow r ev) evs := rfl
    by_cases h : ev.oid = r.oid
    · rw [if_pos h] at hb'
      have hfill' : (applyEvRow r ev).filled = r.filled + ev.qty := by
        cases ev with
        | fill o q =>
          simp only [Ev.oid] at h
          simp only [applyEvRow, if_pos h.symm, applyFillToOrder_filled, Ev.qty]
        | cancel o q =>
          simp only [Ev.oid] at h
          simp only [applyEvRow, if_pos h.symm, applyCancelToOrder_filled, Ev.qty]
      have hinv' : rowInv (applyEvRow r ev) := by
        cases ev with
        | fill o q =>
          simp only [Ev.oid, Ev.qty] at h hposev hb'
          simp only [applyEvRow, if_pos h.symm]
          exact applyFillToOrder_inv r q hposev (by omega)
        | cancel o q =>
          simp only [Ev.oid, Ev.qty] at h hposev hb'
          simp only [applyEvRow, if_pos h.symm]
          exact applyCancelToOrder_inv r q hposev (by omega)
      have hfields := applyEvRow_fields r ev
      have hb2 : (applyEvRow r ev).filled + evTotal evs (applyEvRow r ev).oid
          ≤ (applyEvRow r ev).quantity := by
        rw [hfill', hfields.1, hfields.2.1]
        omega
      have hrec := ih (applyEvRow r ev) hb2
        (fun e he => hpos e (List.mem_cons_of_mem ev he)) hinv'
      rw [hstep]
      refine ⟨hrec.1, ?_, ?_, ?_, ?_⟩
      · rw [hrec.2.1, hfields.1]
      · rw [hrec.2.2.1, hfields.2.1]
      · rw [hrec.2.2.2.1, hfields.2.2.1]
      · rw [hrec.2.2.2.2, hfields.1, hfill', evTotal_cons, if_pos h]
        omega
    · rw [if_neg h] at hb'
      have hskip : applyEvRow r ev = r := by
        cases ev with
        | fill o q =>
          simp only [Ev.oid] at h
          have : ¬ r.oid = o := fun hh => h hh.symm
          simp [applyEvRow, this]
        | cancel o q =>
          simp only [Ev.oid] at h
          have : ¬ r.oid = o := fun hh => h hh.symm
          simp [applyEvRow, this]
      have hrec := ih r (by omega) (fun e he => hpos e (List.mem_cons_of_mem ev he)) hinv
      rw [hstep, hskip]
      refine ⟨hrec.1, hrec.2.1, hrec.2.2.1, hrec.2.2.2.1, ?_⟩
      rw [hrec.2.2.2.2, evTotal_cons, if_neg h]
      omega

theorem entryOfRow_some {r : OrderRow} {e : Entry} (h : entryOfRow r = some e) :
    e.oid = r.oid ∧ e.tid = r.tid ∧ e.qty = r.quantity - r.filled
      ∧ r.filled < r.quantity := by
  revert h
  unfold entryOfRow
  cases r.price with
  | none => intro h; simp at h
  | some p =>
    intro h
    split_ifs at h with h1 h2
    injection h with h
    subst h
    exact ⟨rfl, rfl, rfl, h2⟩

theorem loadBook_mem {rows : List OrderRow} {x : Nat} {e : Entry}
    (he : e ∈ loadBook rows x) :
    e.oid ≠ x ∧ 0 < e.qty ∧ ∃ r ∈ rows, e.oid = r.oid ∧ e.qty = r.quantity - r.filled := by
  unfold loadBook at he
  obtain ⟨r, hr, hsome⟩ := List.mem_filterMap.mp he
  by_cases hx : r.oid = x
  · rw [if_pos hx] at hsome; simp at hsome
  · rw [if_neg hx] at hsome
    obtain ⟨h1, _, h3, h4⟩ := entryOfRow_some hsome
    exact ⟨by rw [h1]; exact hx, by omega, r, hr, h1, h3⟩

theorem qtySum_nil (o : Nat) : qtySum [] o = 0 := by
  simp [qtySum]

theorem qtySum_loadBook_zero {rows : List OrderRow} {x o : Nat}
    (h : ∀ r ∈ rows, r.oid ≠ o) : qtySum (loadBook rows x) o = 0 := by
  induction rows with
  | nil => simp [loadBook, qtySum]
  | cons s rest ih =>
    have hs := h s (List.mem_cons_self s rest)
    have hrest := ih (fun r hr => h r (List.mem_cons_of_mem s hr))
    unfold loadBook at *
    rw [List.filterMap_cons]
    cases hcase : (if s.oid = x then none else entryOfRow s) with
    | none => exact hrest
    | some e =>
      rw [qtySum_cons]
      have heo : e.oid = s.oid := by
        by_cases hx : s.oid = x
        · rw [if_pos hx] at hcase; simp at hcase
        · rw [if_neg hx] at hcase; exact (entryOfRow_some hcase).1
      rw [if_neg (by rw [heo]; exact hs)]
      omega

theorem qtySum_loadBook_le {rows : List OrderRow} {x : Nat}
    (hnd : (rows.map (fun r => r.oid)).Nodup) :
    ∀ r ∈ rows, qtySum (loadBook rows x) r.oid ≤ r.quantity - r.filled := by
  induction rows with
  | nil => intro r hr; simp at hr
  | cons s rest ih =>
    intro r hr
    rw [List.map_cons, List.nodup_cons] at hnd
    rcases List.mem_cons.mp hr with h | h
    · subst h
      have hzero : qtySum (loadBook rest x) r.oid = 0 := by
        apply qtySum_loadBook_zero
        intro r' hr' hcontra
        exact hnd.1 (hcontra ▸ List.mem_map_of_mem (fun t => t.oid) hr')
      unfold loadBook
      rw [List.filterMap_cons]
      cases hcase : (if r.oid = x then none else entryOfRow r) with
      | none =>
        unfold loadBook at hzero
        rw [hzero]
        exact Nat.zero_le _
      | some e =>
        rw [qtySum_cons]
        unfold loadBook at hzero
        by_cases hx : r.oid = x
        · rw [if_pos hx] at hcase; simp at hcase
        · rw [if_neg hx] at hcase
          obtain ⟨h1, _, h3, _⟩ := entryOfRow_some hcase
          rw [if_pos h1, hzero, h3]
          omega
    · have hsne : s.oid ≠ r.oid := by
        intro hcontra
        exact hnd.1 (hcontra ▸ List.mem_map_of_mem (fun t => t.oid) h)
      have hrest := ih hnd.2 r h
      unfold loadBook
      rw [List.filterMap_cons]
      cases hcase : (if s.oid = x then none else entryOfRow s) with
      | none => exact hrest
      | some e =>
        rw [qtySum_cons]
        have heo : e.oid = s.oid := by
          by_cases hx : s.oid = x
          · rw [if_pos hx] at hcase; simp at hcase
          · rw [if_neg hx] at hcase; exact (entryOfRow_some hcase).1
        rw [if_neg (by rw [heo]; exact hsne)]
        unfold loadBook at hrest
        omega

theorem updateNewOrderStatus_fields (r : OrderRow) :
    (updateNewOrderStatus r).oid = r.oid ∧ (updateNewOrderStatus r).filled = r.filled
      ∧ (updateNewOrderStatus r).quantity = r.quantity := by
  unfold updateNewOrderStatus
  cases r.otype <;> exact ⟨rfl, rfl, rfl⟩

theorem updateNewOrderStatus_inv (r : OrderRow) (hf : r.filled ≤ r.quantity) :
    rowInv (updateNewOrderStatus r) := by
  unfold updateNewOrderStatus rowInv
  cases r.otype with
  | market =>
    refine ⟨hf, ?_, ?_⟩
    · intro hst
      dsimp only at hst ⊢
      by_cases hc : r.quantity ≤ r.filled
      · omega
      · rw [if_neg hc] at hst
        simp at hst
    · intro hst
      dsimp only at hst ⊢
      by_cases hc : r.quantity ≤ r.filled
      · rw [if_pos hc] at hst
        simp at hst
      · rw [if_neg hc] at hst
        simp at hst
  | limit =>
    refine ⟨hf, ?_, ?_⟩
    · intro hst
      dsimp only at hst ⊢
      by_cases hc : r.quantity ≤ r.filled
      · omega
      · rw [if_neg hc] at hst
        by_cases hp : 0 < r.filled
        · rw [if_pos hp] at hst
          simp at hst
        · rw [if_neg hp] at hst
          simp at hst
    · intro hst
      dsimp only at hst ⊢
      by_cases hc : r.quantity ≤ r.filled
      · rw [if_pos hc] at hst
        simp at hst
      · rw [if_neg hc] at hst
        by_cases hp : 0 < r.filled
        · omega
        · rw [if_neg hp] at hst
          simp at hst

theorem getRow_nodup {rows : List OrderRow} {r : OrderRow}
    (hnd : (rows.map (fun t => t.oid)).Nodup) (hr : r ∈ rows) :
    getRow rows r.oid = some r := by
  induction rows with
  | nil => simp at hr
  | cons s rest ih =>
    rw [List.map_cons, List.nodup_cons] at hnd
    rcases List.mem_cons.mp hr with h | h
    · subst h
      simp [getRow, List.find?_cons]
    · have hsne : ¬ s.oid = r.oid := by
        intro hcontra
        exact hnd.1 (hcontra ▸ List.mem_map_of_mem (fun t => t.oid) h)
      unfold getRow
      rw [List.find?_cons_of_neg _ (by simpa using hsne)]
      exact ih hnd.2 h

theorem oid_inj {rows : List OrderRow} {r1 r2 : OrderRow}
    (hnd : (rows.map (fun t => t.oid)).Nodup) (h1 : r1 ∈ rows) (h2 : r2 ∈ rows)
    (heq : r1.oid = r2.oid) : r1 = r2 := by
  have g1 := getRow_nodup hnd h1
  have g2 := getRow_nodup hnd h2
  rw [heq] at g1
  rw [g1] at g2
  injection g2

theorem applyEvsRow_fields (evs : List Ev) :
    ∀ r : OrderRow, (applyEvsRow r evs).oid = r.oid
      ∧ (applyEvsRow r evs).quantity = r.quantity
      ∧ (applyEvsRow r evs).otype = r.otype := by
  induction evs with
  | nil => intro r; exact ⟨rfl, rfl, rfl⟩
  | cons ev evs ih =>
    intro r
    have hstep : applyEvsRow r (ev :: evs) = applyEvsRow (applyEvRow r ev) evs := rfl
    have hf := applyEvRow_fields r ev
    have hrec := ih (applyEvRow r ev)
    rw [hstep]
    exact ⟨hrec.1.trans hf.1, hrec.2.1.trans hf.2.1, hrec.2.2.trans hf.2.2.1⟩

theorem evsOf_pos {ts : List SimpleTrade} {cs : List SimpleCancel}
    (hts : ∀ t ∈ ts, 0 < t.qty) (hcs : ∀ c ∈ cs, 0 < c.qty) :
    ∀ ev ∈ evsOf ts cs, 0 < ev.qty := by
  intro ev hev
  unfold evsOf at hev
  rcases List.mem_append.mp hev with h | h
  · obtain ⟨t, ht, hmem⟩ := List.mem_flatMap.mp h
    simp only [List.mem_cons, List.not_mem_nil, or_false] at hmem
    rcases hmem with h | h <;> subst h <;> exact hts t ht
  · obtain ⟨c, hc, hmem⟩ := List.mem_map.mp h
    rw [← hmem]
    exact hcs c hc

theorem getRow_map {rows : List OrderRow} {g : OrderRow → OrderRow} {o : Nat}
    (hg : ∀ r, (g r).oid = r.oid) :
    getRow (rows.map g) o = (getRow rows o).map g := by
  induction rows with
  | nil => simp [getRow]
  | cons s rest ih =>
    by_cases h : s.oid = o
    · unfold getRow
      rw [List.map_cons, List.find?_cons_of_pos _ (by simp [hg s, h]),
        List.find?_cons_of_pos _ (by simp [h])]
      rfl
    · unfold getRow
      rw [List.map_cons, List.find?_cons_of_neg _ (by simp [hg s, h]),
        List.find?_cons_of_neg _ (by simp [h])]
      exact ih

theorem applyFillsToBook_mem {fills : List (Nat × Nat)} {b : List Entry} {e : Entry}
    (he : e ∈ applyFillsToBook fills b) : ∃ e0 ∈ b, e.oid = e0.oid := by
  unfold applyFillsToBook at he
  obtain ⟨e0, he0, hsome⟩ := List.mem_filterMap.mp he
  by_cases hle : e0.qty ≤ fillsFor fills e0.oid
  · rw [if_pos hle] at hsome; simp at hsome
  · rw [if_neg hle] at hsome
    injection hsome with hsome
    exact ⟨e0, he0, by rw [← hsome]⟩

theorem addOrder_trades_pos (book : List Entry) (inc : Incoming)
    (hpos : ∀ e ∈ book, 0 < e.qty) :
    ∀ t ∈ (addOrder book inc).trades, 0 < t.qty := by
  intro t ht
  unfold addOrder at ht
  simp only at ht
  refine matchFold_trades_pos inc _ _ ?_ t ht
  intro e he
  rw [sortOpp_mem] at he
  exact hpos e (stpWalk_book_mem inc book inc.qty e (List.mem_filter.mp he).1)

theorem addOrder_cancels_pos (book : List Entry) (inc : Incoming) :
    ∀ c ∈ (addOrder book inc).cancels, 0 < c.qty := by
  intro c hc
  unfold addOrder at hc
  simp only at hc
  exact (stpWalk_cancels_sound inc book inc.qty c hc).choose_spec.2.2.1

theorem loadBook_evs_bound (rows : List OrderRow) (newRow : OrderRow)
    (hnd : (rows.map (fun t => t.oid)).Nodup) (hmem : newRow ∈ rows)
    (hle : ∀ r ∈ rows, r.filled ≤ r.quantity) :
    ∀ r ∈ rows,
      r.filled + evTotal
        (evsOf (addOrder (loadBook rows newRow.oid) (incomingOfRow newRow)).trades
          (addOrder (loadBook rows newRow.oid) (incomingOfRow newRow)).cancels) r.oid
        ≤ r.quantity := by
  intro r hr
  have hler := hle r hr
  rw [evTotal_evsOf]
  by_cases ho : r.oid = (incomingOfRow newRow).oid
  · have hoid : (incomingOfRow newRow).oid = newRow.oid := rfl
    have hre : r = newRow := oid_inj hnd hr hmem (by rw [ho, hoid])
    have hni : ∀ e ∈ loadBook rows newRow.oid, e.oid ≠ (incomingOfRow newRow).oid := by
      intro e he
      rw [hoid]
      exact (loadBook_mem he).1
    have hb := addOrder_inc_fill_bound (loadBook rows newRow.oid) (incomingOfRow newRow) hni
    rw [ho, hb.2]
    have hq : (incomingOfRow newRow).qty = newRow.quantity - newRow.filled := rfl
    subst hre
    omega
  · have h1 := addOrder_fill_bound (loadBook rows newRow.oid) (incomingOfRow newRow) r.oid ho
    have h2 := qtySum_loadBook_le (x := newRow.oid) hnd r hr
    omega

theorem placeAndMatch_rows_def (rows : List OrderRow) (newRow : OrderRow) :
    (placeAndMatch rows newRow).rows =
      updateRow
        (applyEvs rows
          (evsOf (addOrder (loadBook rows newRow.oid) (incomingOfRow newRow)).trades
            (addOrder (loadBook rows newRow.oid) (incomingOfRow newRow)).cancels))
        newRow.oid updateNewOrderStatus := rfl

theorem placeAndMatch_evs_pos (rows : List OrderRow) (newRow : OrderRow) :
    ∀ ev ∈ evsOf (addOrder (loadBook rows newRow.oid) (incomingOfRow newRow)).trades
        (addOrder (loadBook rows newRow.oid) (incomingOfRow newRow)).cancels,
      0 < ev.qty := by
  refine evsOf_pos ?_ ?_
  · exact addOrder_trades_pos _ _ (fun e he => (loadBook_mem he).2.1)
  · exact addOrder_cancels_pos _ _

theorem placeAndMatch_rows_inv (rows : List OrderRow) (newRow : OrderRow)
    (hnd : (rows.map (fun t => t.oid)).Nodup) (hmem : newRow ∈ rows)
    (hinv : ∀ r ∈ rows, rowInv r) :
    ∀ r ∈ (placeAndMatch rows newRow).rows, rowInv r := by
  intro r hr
  rw [placeAndMatch_rows_def] at hr
  unfold updateRow at hr
  rw [applyEvs_eq_map, List.map_map] at hr
  obtain ⟨r0, hr0, hre⟩ := List.mem_map.mp hr
  simp only [Function.comp] at hre
  have hbound := loadBook_evs_bound rows newRow hnd hmem
    (fun t ht => (hinv t ht).1) r0 hr0
  have hpos := placeAndMatch_evs_pos rows newRow
  have hstep := applyEvsRow_inv _ r0 hbound hpos (hinv r0 hr0)
  by_cases hcase : (applyEvsRow r0
      (evsOf (addOrder (loadBook rows newRow.oid) (incomingOfRow newRow)).trades
        (addOrder (loadBook rows newRow.oid) (incomingOfRow newRow)).cancels)).oid
      = newRow.oid
  · rw [if_pos hcase] at hre
    rw [← hre]
    exact updateNewOrderStatus_inv _ hstep.1.1
  · rw [if_neg hcase] at hre
    rw [← hre]
    exact hstep.1

theorem entry_find_nodup {book : List Entry} {e : Entry}
    (hnd : (book.map (fun x => x.oid)).Nodup) (he : e ∈ book) :
    book.find? (fun x => x.oid = e.oid) = some e := by
  induction book with
  | nil => simp at he
  | cons s rest ih =>
    rw [List.map_cons, List.nodup_cons] at hnd
    rcases List.mem_cons.mp he with h | h
    · subst h
      rw [List.find?_cons_of_pos _ (by simp)]
    · have hsne : ¬ s.oid = e.oid := by
        intro hcontra
        exact hnd.1 (hcontra ▸ List.mem_map_of_mem (fun x => x.oid) h)
      rw [List.find?_cons_of_neg _ (by simpa using hsne)]
      exact ih hnd.2 h

theorem addOrder_trades_team (book : List Entry) (inc : Incoming) :
    ∀ t ∈ (addOrder book inc).trades, ∃ e ∈ book, e.tid ≠ inc.tid ∧
      ((t.buyerOid = inc.oid ∧ t.sellerOid = e.oid)
        ∨ (t.buyerOid = e.oid ∧ t.sellerOid = inc.oid)) := by
  intro t ht
  unfold addOrder at ht
  simp only at ht
  obtain ⟨e, he, hteam, qt, _, hmk⟩ := matchFold_trades_sound inc _ _ t ht
  rw [sortOpp_mem] at he
  have hebook : e ∈ book :=
    stpWalk_book_mem inc book inc.qty e (List.mem_filter.mp he).1
  refine ⟨e, hebook, hteam, ?_⟩
  have := mkTrade_buyer_seller inc e qt
  rw [← hmk] at this
  rcases this with ⟨hb, hs⟩ | ⟨hb, hs⟩
  · exact Or.inl ⟨hb, hs⟩
  · exact Or.inr ⟨hb, hs⟩

theorem addOrder_book_from (book : List Entry) (inc : Incoming)
    (hp : inc.price = none) :
    ∀ e ∈ (addOrder book inc).book, ∃ e0 ∈ book, e.oid = e0.oid := by
  intro e he
  unfold addOrder at he
  simp only at he
  rw [if_neg (by simp [hp])] at he
  rcases List.mem_append.mp he with h | h
  · obtain ⟨e1, he1, hoid⟩ := applyFillsToBook_mem h
    exact ⟨e1, stpWalk_book_mem inc book inc.qty e1 he1, hoid⟩
  · obtain ⟨e0, he0, hoid⟩ := stpWalk_requeue_mem inc book inc.qty e h
    exact ⟨e0, he0, hoid⟩

theorem updateNewOrderStatus_market {w : OrderRow} (hm : w.otype = OType.market) :
    (updateNewOrderStatus w).status =
      if w.quantity ≤ w.filled then OStatus.filled else OStatus.cancelled := by
  simp only [updateNewOrderStatus, hm]

theorem placeAndMatch_getRow_new (rows : List OrderRow) (newRow : OrderRow)
    (hnd : (rows.map (fun t => t.oid)).Nodup) (hmem : newRow ∈ rows) :
    getRow (placeAndMatch rows newRow).rows newRow.oid =
      some (updateNewOrderStatus (applyEvsRow newRow
        (evsOf (addOrder (loadBook rows newRow.oid) (incomingOfRow newRow)).trades
          (addOrder (loadBook rows newRow.oid) (incomingOfRow newRow)).cancels))) := by
  rw [placeAndMatch_rows_def]
  unfold updateRow
  rw [applyEvs_eq_map]
  have hg1 : ∀ r : OrderRow, (applyEvsRow r
      (evsOf (addOrder (loadBook rows newRow.oid) (incomingOfRow newRow)).trades
        (addOrder (loadBook rows newRow.oid) (incomingOfRow newRow)).cancels)).oid = r.oid :=
    fun r => (applyEvsRow_fields _ r).1
  have hg2 : ∀ r : OrderRow,
      ((fun r : OrderRow => if r.oid = newRow.oid then updateNewOrderStatus r else r) r).oid
        = r.oid := by
    intro r
    dsimp only
    by_cases h : r.oid = newRow.oid
    · rw [if_pos h, updateNewOrderStatus_fields r |>.1]
    · rw [if_neg h]
  rw [getRow_map hg2, getRow_map hg1, getRow_nodup hnd hmem]
  simp only [Option.map_some']
  rw [if_pos (hg1 newRow)]

/-- C1: every trade emitted by `MatchingEngine.add_order` (and hence every
trade row written by `place_and_match`) pairs orders of two different
teams: the buyer order's team differs from the seller order's team, and a
fill between two orders of the same team never produces a trade event. -/
theorem c1_no_wrong_side_trades (book : List Entry) (inc : Incoming)
    (hnd : (book.map (fun e => e.oid)).Nodup)
    (hni : ∀ e ∈ book, e.oid ≠ inc.oid) :
    ∀ t ∈ (addOrder book inc).trades,
      findTeam book inc t.buyerOid ≠ findTeam book inc t.sellerOid := by
  intro t ht
  obtain ⟨e, he, hteam, hd⟩ := addOrder_trades_team book inc t ht
  have hfe : findTeam book inc e.oid = some e.tid := by
    unfold findTeam
    rw [if_neg (hni e he), entry_find_nodup hnd he]
    rfl
  have hfi : findTeam book inc inc.oid = some inc.tid := by
    unfold findTeam
    rw [if_pos rfl]
  rcases hd with ⟨hb, hs⟩ | ⟨hb, hs⟩
  · rw [hb, hs, hfi, hfe]
    intro hcontra
    injection hcontra with hcontra
    exact hteam hcontra.symm
  · rw [hb, hs, hfe, hfi]
    intro hcontra
    injection hcontra with hcontra
    exact hteam hcontra

theorem c1_no_wrong_side_trades_witness :
    ((([⟨1, 1, Side.buy, 101, 100⟩] : List Entry).map (fun e => e.oid)).Nodup
        ∧ ∀ e ∈ ([⟨1, 1, Side.buy, 101, 100⟩] : List Entry),
            e.oid ≠ (⟨2, 2, Side.sell, some 100, 80⟩ : Incoming).oid)
      ∧ ∀ t ∈ (addOrder [⟨1, 1, Side.buy, 101, 100⟩] ⟨2, 2, Side.sell, some 100, 80⟩).trades,
          findTeam [⟨1, 1, Side.buy, 101, 100⟩] ⟨2, 2, Side.sell, some 100, 80⟩ t.buyerOid
            ≠ findTeam [⟨1, 1, Side.buy, 101, 100⟩] ⟨2, 2, Side.sell, some 100, 80⟩ t.sellerOid :=
  ⟨⟨by decide, by decide⟩,
    c1_no_wrong_side_trades _ _ (by decide) (by decide)⟩

/-- C2 counterexample: the claimed biconditionals fail. Store: team 1
rests a sell limit 100 @ 100 (row 1), then places a market buy 100
(row 2). STP cancels the whole resting sell, so row 1 ends with
`filled_quantity = quantity = 100` but status `cancelled`, refuting
`status == filled ⇔ filled_quantity == quantity` (and row 2, a partially
cancelled market order, would likewise refute the `partial`
biconditional in other runs). -/
theorem c2_counterexample :
    ¬ (∀ r ∈ (placeAndMatch
        [⟨1, 1, OType.limit, Side.sell, 100, 0, some 100, OStatus.pending⟩,
         ⟨2, 1, OType.market, Side.buy, 100, 0, none, OStatus.pending⟩]
        ⟨2, 1, OType.market, Side.buy, 100, 0, none, OStatus.pending⟩).rows,
      (r.status = OStatus.filled ↔ r.filled = r.quantity)
        ∧ (r.status = OStatus.partFilled ↔ 0 < r.filled ∧ r.filled < r.quantity)) := by
  decide

/-- C2 (amended): for every order row after `place_and_match` — given a
store with unique order ids whose rows satisfy the invariant and contain
the new row — `0 ≤ filled_quantity ≤ quantity` holds, `status = filled`
implies `filled_quantity = quantity`, and `status = partial` implies
`0 < filled_quantity < quantity`. The two converses do not hold: a
`cancelled` row may carry any fill level, including
`filled_quantity = quantity` (STP consumption is recorded in
`filled_quantity`). -/
theorem c2_row_invariants (rows : List OrderRow) (newRow : OrderRow)
    (hnd : (rows.map (fun t => t.oid)).Nodup) (hmem : newRow ∈ rows)
    (hinv : ∀ r ∈ rows, rowInv r) :
    ∀ r ∈ (placeAndMatch rows newRow).rows,
      r.filled ≤ r.quantity
        ∧ (r.status = OStatus.filled → r.filled = r.quantity)
        ∧ (r.status = OStatus.partFilled → 0 < r.filled ∧ r.filled < r.quantity) :=
  fun r hr => placeAndMatch_rows_inv rows newRow hnd hmem hinv r hr

theorem c2_row_invariants_witness :
    (((([⟨1, 1, OType.limit, Side.sell, 40, 0, some 100, OStatus.pending⟩,
         ⟨2, 2, OType.limit, Side.sell, 60, 0, some 100, OStatus.pending⟩,
         ⟨3, 1, OType.limit, Side.buy, 70, 0, some 110, OStatus.pending⟩] : List OrderRow).map
        (fun t => t.oid)).Nodup)
      ∧ (⟨3, 1, OType.limit, Side.buy, 70, 0, some 110, OStatus.pending⟩ : OrderRow) ∈
          ([⟨1, 1, OType.limit, Side.sell, 40, 0, some 100, OStatus.pending⟩,
            ⟨2, 2, OType.limit, Side.sell, 60, 0, some 100, OStatus.pending⟩,
            ⟨3, 1, OType.limit, Side.buy, 70, 0, some 110, OStatus.pending⟩] : List OrderRow)
      ∧ (∀ r ∈ ([⟨1, 1, OType.limit, Side.sell, 40, 0, some 100, OStatus.pending⟩,
            ⟨2, 2, OType.limit, Side.sell, 60, 0, some 100, OStatus.pending⟩,
            ⟨3, 1, OType.limit, Side.buy, 70, 0, some 110, OStatus.pending⟩] : List OrderRow),
          rowInv r))
      ∧ ∀ r ∈ (placeAndMatch
          [⟨1, 1, OType.limit, Side.sell, 40, 0, some 100, OStatus.pending⟩,
           ⟨2, 2, OType.limit, Side.sell, 60, 0, some 100, OStatus.pending⟩,
           ⟨3, 1, OType.limit, Side.buy, 70, 0, some 110, OStatus.pending⟩]
          ⟨3, 1, OType.limit, Side.buy, 70, 0, some 110, OStatus.pending⟩).rows,
        r.filled ≤ r.quantity
          ∧ (r.status = OStatus.filled → r.filled = r.quantity)
          ∧ (r.status = OStatus.partFilled → 0 < r.filled ∧ r.filled < r.quantity) :=
  ⟨⟨by decide, by decide, by decide⟩,
    c2_row_invariants _ _ (by decide) (by decide) (by decide)⟩

/-- C3: the STP pre-pass does not reduce a limit order's remaining
quantity (the adjusted quantity entering the matching pass equals the
incoming quantity), while a market order's remaining quantity is reduced
by the total self-cancelled quantity before matching; consequently the
STP'd amount of a market order is never traded against other teams'
liquidity (trades + STP cancels never exceed the order's quantity). -/
theorem c3_stp_market_reduction (book : List Entry) (inc : Incoming) :
    stpAdjustedQty inc (stpWalk inc book inc.qty).target
        = (if inc.price = none
            then inc.qty - cancelsQty (addOrder book inc).cancels
            else inc.qty)
      ∧ tradesQty (addOrder book inc).trades
          + (if inc.price = none then cancelsQty (addOrder book inc).cancels else 0)
        ≤ inc.qty := by
  have hcdef : (addOrder book inc).cancels = (stpWalk inc book inc.qty).cancels := rfl
  have hcons := stpWalk_conservation inc book inc.qty
  constructor
  · unfold stpAdjustedQty
    by_cases hp : inc.price = none
    · rw [if_pos hp, if_pos hp, hcdef]
      omega
    · rw [if_neg hp, if_neg hp]
  · have htdef : (addOrder book inc).trades =
        (matchFold inc
          (sortOpp inc.side
            ((stpWalk inc book inc.qty).book.filter (fun e => e.side = inc.side.opp)))
          (stpAdjustedQty inc (stpWalk inc book inc.qty).target)).trades := rfl
    have hmc := matchFold_conservation inc
      (sortOpp inc.side
        ((stpWalk inc book inc.qty).book.filter (fun e => e.side = inc.side.opp)))
      (stpAdjustedQty inc (stpWalk inc book inc.qty).target)
    rw [htdef, hcdef]
    by_cases hp : inc.price = none
    · have ha : stpAdjustedQty inc (stpWalk inc book inc.qty).target
          = (stpWalk inc book inc.qty).target := by
        unfold stpAdjustedQty
        rw [if_pos hp]
      rw [if_pos hp]
      omega
    · have ha : stpAdjustedQty inc (stpWalk inc book inc.qty).target = inc.qty := by
        unfold stpAdjustedQty
        rw [if_neg hp]
      rw [if_neg hp]
      omega

/-- C4: a market order (null price) never rests — after the call no book
entry carries its order id — and `place_and_match` finalises its row to
`filled` when `filled_quantity ≥ quantity` and to `cancelled` otherwise;
the row never ends `pending` or `partial`. -/
theorem c4_market_non_residency (rows : List OrderRow) (newRow : OrderRow)
    (hnd : (rows.map (fun t => t.oid)).Nodup) (hmem : newRow ∈ rows)
    (ht : newRow.otype = OType.market) (hp : newRow.price = none) :
    (∀ e ∈ (placeAndMatch rows newRow).book, e.oid ≠ newRow.oid)
      ∧ ∃ r', getRow (placeAndMatch rows newRow).rows newRow.oid = some r'
          ∧ r'.status = (if r'.quantity ≤ r'.filled then OStatus.filled else OStatus.cancelled)
          ∧ r'.status ≠ OStatus.pending ∧ r'.status ≠ OStatus.partFilled := by
  constructor
  · intro e he
    have hbdef : (placeAndMatch rows newRow).book =
        (addOrder (loadBook rows newRow.oid) (incomingOfRow newRow)).book := rfl
    rw [hbdef] at he
    have hpin : (incomingOfRow newRow).price = none := by
      unfold incomingOfRow
      exact hp
    obtain ⟨e0, he0, hoid⟩ :=
      addOrder_book_from (loadBook rows newRow.oid) (incomingOfRow newRow) hpin e he
    rw [hoid]
    exact (loadBook_mem he0).1
  · refine ⟨_, placeAndMatch_getRow_new rows newRow hnd hmem, ?_, ?_, ?_⟩
    · have hw : (applyEvsRow newRow
          (evsOf (addOrder (loadBook rows newRow.oid) (incomingOfRow newRow)).trades
            (addOrder (loadBook rows newRow.oid) (incomingOfRow newRow)).cancels)).otype
          = OType.market := by
        rw [(applyEvsRow_fields _ newRow).2.2, ht]
      rw [updateNewOrderStatus_market hw,
        (updateNewOrderStatus_fields _).2.1, (updateNewOrderStatus_fields _).2.2]
    · have hw : (applyEvsRow newRow
          (evsOf (addOrder (loadBook rows newRow.oid) (incomingOfRow newRow)).trades
            (addOrder (loadBook rows newRow.oid) (incomingOfRow newRow)).cancels)).otype
          = OType.market := by
        rw [(applyEvsRow_fields _ newRow).2.2, ht]
      rw [updateNewOrderStatus_market hw]
      split_ifs <;> simp
    · have hw : (applyEvsRow newRow
          (evsOf (addOrder (loadBook rows newRow.oid) (incomingOfRow newRow)).trades
            (addOrder (loadBook rows newRow.oid) (incomingOfRow newRow)).cancels)).otype
          = OType.market := by
        rw [(applyEvsRow_fields _ newRow).2.2, ht]
      rw [updateNewOrderStatus_market hw]
      split_ifs <;> simp

theorem c4_market_non_residency_witness :
    (((([⟨1, 1, OType.limit, Side.sell, 50, 0, some 100, OStatus.pending⟩,
         ⟨2, 2, OType.market, Side.buy, 80, 0, none, OStatus.pending⟩] : List OrderRow).map
        (fun t => t.oid)).Nodup)
      ∧ (⟨2, 2, OType.market, Side.buy, 80, 0, none, OStatus.pending⟩ : OrderRow) ∈
          ([⟨1, 1, OType.limit, Side.sell, 50, 0, some 100, OStatus.pending⟩,
            ⟨2, 2, OType.market, Side.buy, 80, 0, none, OStatus.pending⟩] : List OrderRow)
      ∧ (⟨2, 2, OType.market, Side.buy, 80, 0, none, OStatus.pending⟩ : OrderRow).otype
          = OType.market
      ∧ (⟨2, 2, OType.market, Side.buy, 80, 0, none, OStatus.pending⟩ : OrderRow).price = none)
      ∧ ((∀ e ∈ (placeAndMatch
            [⟨1, 1, OType.limit, Side.sell, 50, 0, some 100, OStatus.pending⟩,
             ⟨2, 2, OType.market, Side.buy, 80, 0, none, OStatus.pending⟩]
            ⟨2, 2, OType.market, Side.buy, 80, 0, none, OStatus.pending⟩).book,
          e.oid ≠ (⟨2, 2, OType.market, Side.buy, 80, 0, none, OStatus.pending⟩ : OrderRow).oid)
        ∧ ∃ r', getRow (placeAndMatch
            [⟨1, 1, OType.limit, Side.sell, 50, 0, some 100, OStatus.pending⟩,
             ⟨2, 2, OType.market, Side.buy, 80, 0, none, OStatus.pending⟩]
            ⟨2, 2, OType.market, Side.buy, 80, 0, none, OStatus.pending⟩).rows
            (⟨2, 2, OType.market, Side.buy, 80, 0, none, OStatus.pending⟩ : OrderRow).oid
            = some r'
            ∧ r'.status = (if r'.quantity ≤ r'.filled then OStatus.filled else OStatus.cancelled)
            ∧ r'.status ≠ OStatus.pending ∧ r'.status ≠ OStatus.partFilled) :=
  ⟨⟨by decide, by decide, by decide, by decide⟩,
    c4_market_non_residency _ _ (by decide) (by decide) (by decide) (by decide)⟩

theorem applyBuyShort (pos : Position) (q : Int) (p a : ℚ)
    (hq : pos.qty < 0) (ha : pos.avg = some a) :
    applyTradeToPosition pos Side.buy q p =
      (if 0 < q - min q (-pos.qty) then
        (⟨q - min q (-pos.qty), some p,
          pos.realized + (a - p) * ((min q (-pos.qty) : Int) : ℚ)⟩ : Position)
      else
        ⟨pos.qty + min q (-pos.qty),
          if pos.qty + min q (-pos.qty) = 0 then none else some a,
          pos.realized + (a - p) * ((min q (-pos.qty) : Int) : ℚ)⟩) := by
  unfold applyTradeToPosition
  rw [if_neg (not_le.mpr hq), ha]

theorem applyBuyFlat (pos : Position) (q : Int) (p : ℚ)
    (h0 : 0 ≤ pos.qty) (h : pos.avg = none ∨ pos.qty = 0) :
    applyTradeToPosition pos Side.buy q p = ⟨pos.qty + q, some p, pos.realized⟩ := by
  unfold applyTradeToPosition
  rw [if_pos h0]
  rcases h with h | h
  · rw [h]
  · cases hv : pos.avg with
    | none => rfl
    | some a =>
      dsimp only
      rw [if_pos h]

theorem applyBuyWeighted (pos : Position) (q : Int) (p a : ℚ)
    (h0 : 0 ≤ pos.qty) (ha : pos.avg = some a) (hz : pos.qty ≠ 0) :
    applyTradeToPosition pos Side.buy q p =
      ⟨pos.qty + q,
        some ((a * (pos.qty : ℚ) + p * (q : ℚ)) / ((pos.qty : ℚ) + (q : ℚ))),
        pos.realized⟩ := by
  unfold applyTradeToPosition
  rw [if_pos h0, ha]
  dsimp only
  rw [if_neg hz]

theorem applySellLong (pos : Position) (q : Int) (p a : ℚ)
    (hq : 0 < pos.qty) (ha : pos.avg = some a) :
    applyTradeToPosition pos Side.sell q p =
      (if 0 < q - min q pos.qty then
        (⟨-(q - min q pos.qty), some p,
          pos.realized + (p - a) * ((min q pos.qty : Int) : ℚ)⟩ : Position)
      else
        ⟨pos.qty - min q pos.qty,
          if pos.qty - min q pos.qty = 0 then none else some a,
          pos.realized + (p - a) * ((min q pos.qty : Int) : ℚ)⟩) := by
  unfold applyTradeToPosition
  rw [if_neg (not_le.mpr hq), ha]

theorem applySellFlat (pos : Position) (q : Int) (p : ℚ)
    (h0 : pos.qty ≤ 0) (h : pos.avg = none ∨ pos.qty = 0) :
    applyTradeToPosition pos Side.sell q p = ⟨pos.qty - q, some p, pos.realized⟩ := by
  unfold applyTradeToPosition
  rw [if_pos h0]
  rcases h with h | h
  · rw [h]
  · cases hv : pos.avg with
    | none => rfl
    | some a =>
      dsimp only
      rw [if_pos h]

theorem applySellWeighted (pos : Position) (q : Int) (p a : ℚ)
    (h0 : pos.qty ≤ 0) (ha : pos.avg = some a) (hz : pos.qty ≠ 0) :
    applyTradeToPosition pos Side.sell q p =
      ⟨pos.qty - q,
        some ((a * ((-pos.qty : Int) : ℚ) + p * (q : ℚ)) / (((-pos.qty : Int) : ℚ) + (q : ℚ))),
        pos.realized⟩ := by
  unfold applyTradeToPosition
  rw [if_pos h0, ha]
  dsimp only
  rw [if_neg hz]

theorem applyTradeToPosition_posInv (pos : Position) (side : Side) (q : Int) (p : ℚ)
    (hinv : posInv pos) (hq : 0 < q) :
    posInv (applyTradeToPosition pos side q p) := by
  cases side with
  | buy =>
    by_cases h0 : 0 ≤ pos.qty
    · by_cases hflat : pos.avg = none ∨ pos.qty = 0
      · rw [applyBuyFlat pos q p h0 hflat]
        show some p = none ↔ pos.qty + q = 0
        constructor
        · intro h; exact Option.noConfusion h
        · intro h
          exfalso
          rcases hflat with hf | hf
          · have := hinv.mp hf; omega
          · omega
      · push_neg at hflat
        obtain ⟨a, ha⟩ := Option.ne_none_iff_exists'.mp hflat.1
        rw [applyBuyWeighted pos q p a h0 ha hflat.2]
        show some _ = none ↔ pos.qty + q = 0
        constructor
        · intro h; exact Option.noConfusion h
        · intro h
          exfalso
          have := hflat.2
          omega
    · push_neg at h0
      have ha' : ∃ a, pos.avg = some a := by
        cases hv : pos.avg with
        | none =>
          exfalso
          have := hinv.mp hv
          omega
        | some a => exact ⟨a, rfl⟩
      obtain ⟨a, ha⟩ := ha'
      rw [applyBuyShort pos q p a h0 ha]
      by_cases hrem : 0 < q - min q (-pos.qty)
      · rw [if_pos hrem]
        show some p = none ↔ q - min q (-pos.qty) = 0
        constructor
        · intro h; exact Option.noConfusion h
        · intro h; exfalso; omega
      · rw [if_neg hrem]
        show (if pos.qty + min q (-pos.qty) = 0 then none else some a) = none
          ↔ pos.qty + min q (-pos.qty) = 0
        by_cases hz : pos.qty + min q (-pos.qty) = 0
        · rw [if_pos hz]
          exact iff_of_true rfl hz
        · rw [if_neg hz]
          exact iff_of_false (fun h => Option.noConfusion h) hz
  | sell =>
    by_cases h0 : pos.qty ≤ 0
    · by_cases hflat : pos.avg = none ∨ pos.qty = 0
      · rw [applySellFlat pos q p h0 hflat]
        show some p = none ↔ pos.qty - q = 0
        constructor
        · intro h; exact Option.noConfusion h
        · intro h
          exfalso
          rcases hflat with hf | hf
          · have := hinv.mp hf; omega
          · omega
      · push_neg at hflat
        obtain ⟨a, ha⟩ := Option.ne_none_iff_exists'.mp hflat.1
        rw [applySellWeighted pos q p a h0 ha hflat.2]
        show some _ = none ↔ pos.qty - q = 0
        constructor
        · intro h; exact Option.noConfusion h
        · intro h
          exfalso
          have := hflat.2
          omega
    · push_neg at h0
      have ha' : ∃ a, pos.avg = some a := by
        cases hv : pos.avg with
        | none =>
          exfalso
          have := hinv.mp hv
          omega
        | some a => exact ⟨a, rfl⟩
      obtain ⟨a, ha⟩ := ha'
      rw [applySellLong pos q p a h0 ha]
      by_cases hrem : 0 < q - min q pos.qty
      · rw [if_pos hrem]
        show some p = none ↔ -(q - min q pos.qty) = 0
        constructor
        · intro h; exact Option.noConfusion h
        · intro h; exfalso; omega
      · rw [if_neg hrem]
        show (if pos.qty - min q pos.qty = 0 then none else some a) = none
          ↔ pos.qty - min q pos.qty = 0
        by_cases hz : pos.qty - min q pos.qty = 0
        · rw [if_pos hz]
          exact iff_of_true rfl hz
        · rw [if_neg hz]
          exact iff_of_false (fun h => Option.noConfusion h) hz

theorem settlePosition_posInv (pos : Position) (P : ℚ) (hinv : posInv pos) :
    posInv (settlePosition pos P) := by
  unfold settlePosition
  cases hv : pos.avg with
  | none => exact hinv
  | some a =>
    dsimp only
    by_cases hz : pos.qty = 0
    · rw [if_pos hz]
      exact hinv
    · rw [if_neg hz]
      show none = none ↔ (0 : Int) = 0
      exact iff_of_true rfl rfl

theorem settlePosition_eq_zero (pos : Position) (P : ℚ) (hz : pos.qty = 0) :
    settlePosition pos P = pos := by
  unfold settlePosition
  cases hv : pos.avg with
  | none => rfl
  | some a =>
    dsimp only
    rw [if_pos hz]

theorem settlePosition_eq (pos : Position) (P a : ℚ)
    (ha : pos.avg = some a) (hz : pos.qty ≠ 0) :
    settlePosition pos P =
      ⟨0, none, pos.realized +
        (if 0 < pos.qty then (P - a) * (pos.qty : ℚ)
          else (a - P) * ((-pos.qty : Int) : ℚ))⟩ := by
  unfold settlePosition
  rw [ha]
  dsimp only
  rw [if_neg hz]

/-- C5: a buy of `q` at price `p` against a short position
(`qty < 0`, average `a`) realises `(a - p) * c` with
`c = min(q, -qty)`, moves the quantity to `qty + c` (nulling the average
at zero), and when `q - c > 0` flips flat into a long of `q - c` at
average `p`. In particular (witness) from `qty = -50, avg = 100,
realized = 0`, a buy of 80 at 95 yields `qty = 30, avg = 95,
realized = 250`. -/
theorem c5_short_cover (pos : Position) (q : Int) (p a : ℚ)
    (hq : pos.qty < 0) (ha : pos.avg = some a) :
    applyTradeToPosition pos Side.buy q p =
      (if 0 < q - min q (-pos.qty) then
        (⟨q - min q (-pos.qty), some p,
          pos.realized + (a - p) * ((min q (-pos.qty) : Int) : ℚ)⟩ : Position)
      else
        ⟨pos.qty + min q (-pos.qty),
          if pos.qty + min q (-pos.qty) = 0 then none else some a,
          pos.realized + (a - p) * ((min q (-pos.qty) : Int) : ℚ)⟩) :=
  applyBuyShort pos q p a hq ha

theorem c5_short_cover_witness :
    ((⟨-50, some 100, 0⟩ : Position).qty < 0
        ∧ (⟨-50, some 100, 0⟩ : Position).avg = some 100)
      ∧ applyTradeToPosition ⟨-50, some 100, 0⟩ Side.buy 80 95 = ⟨30, some 95, 250⟩ :=
  ⟨⟨by decide, rfl⟩, by
    rw [c5_short_cover ⟨-50, some 100, 0⟩ 80 95 100 (by decide) rfl]
    have hmin : min (80 : Int) (-(-50)) = 50 := by decide
    rw [if_pos (by rw [hmin]; decide : (0 : Int) < 80 - min (80 : Int) (-(-50)))]
    rw [hmin]
    norm_num [Position.mk.injEq]⟩

/-- C6: the position law `average_price = null ⇔ quantity = 0` is
preserved by every buy- and sell-side trade application and by
settlement; settling a non-flat position at price `P` adds
`(P - avg) * qty` (long) or `(avg - P) * (-qty)` (short) to
`realized_pnl`, zeroes the quantity and nulls the average, and leaves a
flat position unchanged. -/
theorem c6_position_law (pos : Position) (side : Side) (q : Int) (p P : ℚ)
    (hinv : posInv pos) (hq : 0 < q) :
    posInv (applyTradeToPosition pos side q p)
      ∧ posInv (settlePosition pos P)
      ∧ (pos.qty = 0 → settlePosition pos P = pos)
      ∧ (∀ a, pos.avg = some a → pos.qty ≠ 0 →
          settlePosition pos P =
            ⟨0, none, pos.realized +
              (if 0 < pos.qty then (P - a) * (pos.qty : ℚ)
                else (a - P) * ((-pos.qty : Int) : ℚ))⟩) :=
  ⟨applyTradeToPosition_posInv pos side q p hinv hq,
    settlePosition_posInv pos P hinv,
    fun hz => settlePosition_eq_zero pos P hz,
    fun a ha hz => settlePosition_eq pos P a ha hz⟩

theorem c6_position_law_witness :
    (posInv ⟨-50, some 100, 0⟩ ∧ (0 : Int) < 10)
      ∧ (posInv (applyTradeToPosition ⟨-50, some 100, 0⟩ Side.sell 10 7)
        ∧ posInv (settlePosition ⟨-50, some 100, 0⟩ 3)
        ∧ ((⟨-50, some 100, 0⟩ : Position).qty = 0 → settlePosition ⟨-50, some 100, 0⟩ 3 = ⟨-50, some 100, 0⟩)
        ∧ (∀ a, (⟨-50, some 100, 0⟩ : Position).avg = some a →
            (⟨-50, some 100, 0⟩ : Position).qty ≠ 0 →
            settlePosition ⟨-50, some 100, 0⟩ 3 =
              ⟨0, none, (⟨-50, some 100, 0⟩ : Position).realized +
                (if 0 < (⟨-50, some 100, 0⟩ : Position).qty
                  then ((3 : ℚ) - a) * (((⟨-50, some 100, 0⟩ : Position).qty : Int) : ℚ)
                  else (a - 3) * ((-(⟨-50, some 100, 0⟩ : Position).qty : Int) : ℚ))⟩)) :=
  ⟨⟨by constructor <;> intro h <;> simp at h, by decide⟩,
    c6_position_law ⟨-50, some 100, 0⟩ Side.sell 10 7 3
      (by constructor <;> intro h <;> simp at h) (by decide)⟩

/-- C7 counterexample: `cancel_order` on a `filled` order is not a
no-op and does not return a not-found-or-terminal indicator. For a store
holding one fully `filled` order (id 1), the endpoint returns success
and overwrites the row's status to `cancelled`. -/
theorem c7_counterexample :
    cancelOrderEndpoint
        ⟨[⟨1, 1, OType.limit, Side.buy, 10, 10, some 100, OStatus.filled⟩], []⟩ 1
      = Except.ok ⟨[⟨1, 1, OType.limit, Side.buy, 10, 10, some 100, OStatus.cancelled⟩], []⟩
    ∧ (⟨1, 1, OType.limit, Side.buy, 10, 10, some 100, OStatus.cancelled⟩ : OrderRow)
        ≠ ⟨1, 1, OType.limit, Side.buy, 10, 10, some 100, OStatus.filled⟩ :=
  ⟨rfl, by decide⟩

/-- C7 (amended): `cancel_order` checks only existence, not terminal
status: a missing order id raises not-found; any existing order —
whatever its status, including `filled` and `cancelled` — has its status
unconditionally set to `cancelled`, its id removed from the book, and
all other rows left unchanged. -/
theorem c7_cancel_unconditional (st : CancelState) (oid : Nat) :
    (∀ r, getRow st.rows oid = some r →
        ∃ st', cancelOrderEndpoint st oid = Except.ok st'
          ∧ (∀ r' ∈ st'.rows, r'.oid = oid → r'.status = OStatus.cancelled)
          ∧ oid ∉ st'.bookIds
          ∧ ∀ r' ∈ st'.rows, r'.oid ≠ oid → r' ∈ st.rows)
      ∧ (getRow st.rows oid = none → cancelOrderEndpoint st oid = Except.error ()) := by
  constructor
  · intro r hr
    unfold getRow at hr
    unfold cancelOrderEndpoint
    rw [hr]
    refine ⟨_, rfl, ?_, ?_, ?_⟩
    · intro r' hr' hoid
      unfold updateRow at hr'
      obtain ⟨r0, _, hre⟩ := List.mem_map.mp hr'
      by_cases h : r0.oid = oid
      · rw [if_pos h] at hre
        rw [← hre]
      · rw [if_neg h] at hre
        rw [← hre] at hoid
        exact absurd hoid h
    · intro hmem
      have := (List.mem_filter.mp hmem).2
      simp at this
    · intro r' hr' hne
      unfold updateRow at hr'
      obtain ⟨r0, hr0, hre⟩ := List.mem_map.mp hr'
      by_cases h : r0.oid = oid
      · rw [if_pos h] at hre
        rw [← hre] at hne
        exact absurd h hne
      · rw [if_neg h] at hre
        rw [← hre]
        exact hr0
  · intro hr
    unfold getRow at hr
    unfold cancelOrderEndpoint
    rw [hr]

theorem c7_cancel_unconditional_witness :
    getRow ([⟨1, 1, OType.limit, Side.buy, 10, 0, some 100, OStatus.pending⟩] : List OrderRow) 1
        = some ⟨1, 1, OType.limit, Side.buy, 10, 0, some 100, OStatus.pending⟩
      ∧ ∃ st', cancelOrderEndpoint
            ⟨[⟨1, 1, OType.limit, Side.buy, 10, 0, some 100, OStatus.pending⟩], [1]⟩ 1
            = Except.ok st'
          ∧ (∀ r' ∈ st'.rows, r'.oid = 1 → r'.status = OStatus.cancelled)
          ∧ 1 ∉ st'.bookIds
          ∧ ∀ r' ∈ st'.rows, r'.oid ≠ 1 →
              r' ∈ (⟨[⟨1, 1, OType.limit, Side.buy, 10, 0, some 100, OStatus.pending⟩], [1]⟩
                : CancelState).rows :=
  ⟨by decide,
    (c7_cancel_unconditional
      ⟨[⟨1, 1, OType.limit, Side.buy, 10, 0, some 100, OStatus.pending⟩], [1]⟩ 1).1
      ⟨1, 1, OType.limit, Side.buy, 10, 0, some 100, OStatus.pending⟩ (by decide)⟩

/-- C8 counterexample: the STP pre-pass does not visit crossing self
entries lowest-price-first. Team 1 rests a sell 10 @ 110 (created
first) and a sell 10 @ 100; an incoming team-1 buy 5 @ 120 crosses both,
yet the emitted cancel hits order 1 at the *higher* price 110 (creation
order), not order 2 at the lowest crossing price 100. -/
theorem c8_counterexample :
    (addOrder [⟨1, 1, Side.sell, 110, 10⟩, ⟨2, 1, Side.sell, 100, 10⟩]
        ⟨3, 1, Side.buy, some 120, 5⟩).cancels = [⟨1, 5⟩]
      ∧ isStpCandidate ⟨3, 1, Side.buy, some 120, 5⟩ ⟨2, 1, Side.sell, 100, 10⟩ = true
      ∧ (100 : Nat) < 110 := by
  decide

/-- C8 (amended): the STP pre-pass visits the crossing opposite-side
self entries in book (creation) order, not price order: the cancelled
ids are an initial segment of the crossing self entries in book order,
each cancel consumes at most the entry's remaining quantity, and the
total cancelled quantity is `min(incoming remaining, total crossing self
quantity)`. -/
theorem c8_stp_walk_order (book : List Entry) (inc : Incoming) :
    ((addOrder book inc).cancels.map (fun c => c.oid)
        = ((book.filter (isStpCandidate inc)).map (fun e => e.oid)).take
            (addOrder book inc).cancels.length)
      ∧ cancelsQty (addOrder book inc).cancels
          = min inc.qty (((book.filter (isStpCandidate inc)).map (fun e => e.qty)).sum)
      ∧ ∀ c ∈ (addOrder book inc).cancels,
          ∃ e ∈ book, c.oid = e.oid ∧ 0 < c.qty ∧ c.qty ≤ e.qty := by
  have hcdef : (addOrder book inc).cancels = (stpWalk inc book inc.qty).cancels := rfl
  rw [hcdef]
  exact ⟨stpWalk_ids_take inc book inc.qty, stpWalk_total inc book inc.qty,
    stpWalk_cancels_sound inc book inc.qty⟩

/-- C9: on a symbol with a position-limit row, `place_order` persists
the order with quantity `min(requested, max_order_size, max(0, position
headroom for the side))` — possibly 0 — with zero fills and status
`pending` rather than rejecting, and returns a warning exactly when the
cap changed the quantity. -/
theorem c9_position_limit_cap (oid tid : Nat) (l : PositionLimitRow) (currentQty : Int)
    (otype : OType) (side : Side) (quantity : Int) (price : Option Nat)
    (hq : 0 ≤ quantity) (hmos : 0 ≤ l.maxOrderSize) :
    (((placeOrderService oid tid (some l) currentQty otype side quantity price).1.quantity : Int)
        = min quantity (min l.maxOrderSize
            (max 0 (match side with
              | Side.buy => l.maxPosition - currentQty
              | Side.sell => l.maxPosition + currentQty))))
      ∧ (placeOrderService oid tid (some l) currentQty otype side quantity price).1.status
          = OStatus.pending
      ∧ (placeOrderService oid tid (some l) currentQty otype side quantity price).1.filled = 0
      ∧ ((placeOrderService oid tid (some l) currentQty otype side quantity price).2 = true
          ↔ ((placeOrderService oid tid (some l) currentQty otype side quantity price).1.quantity
              : Int) ≠ quantity) := by
  have hcap : (applyPositionLimits (some l) currentQty side quantity).1
      = min quantity (min l.maxOrderSize
          (max 0 (match side with
            | Side.buy => l.maxPosition - currentQty
            | Side.sell => l.maxPosition + currentQty))) := by
    unfold applyPositionLimits
    cases side <;> dsimp only <;> omega
  have hpos : 0 ≤ (applyPositionLimits (some l) currentQty side quantity).1 := by
    rw [hcap]
    cases side <;> dsimp only <;> omega
  have hqty : ((placeOrderService oid tid (some l) currentQty otype side quantity price).1.quantity
      : Int) = (applyPositionLimits (some l) currentQty side quantity).1 := by
    show ((applyPositionLimits (some l) currentQty side quantity).1.toNat : Int) = _
    exact Int.toNat_of_nonneg hpos
  refine ⟨by rw [hqty, hcap], rfl, rfl, ?_⟩
  show (decide ((applyPositionLimits (some l) currentQty side quantity).1 ≠ quantity) = true) ↔ _
  rw [decide_eq_true_iff, hqty]

theorem c9_position_limit_cap_witness :
    ((0 : Int) ≤ 80 ∧ (0 : Int) ≤ (⟨100, 50⟩ : PositionLimitRow).maxOrderSize)
      ∧ ((((placeOrderService 1 1 (some ⟨100, 50⟩) 30 OType.limit Side.buy 80
            (some 10)).1.quantity : Int)
          = min 80 (min (⟨100, 50⟩ : PositionLimitRow).maxOrderSize
              (max 0 (match Side.buy with
                | Side.buy => (⟨100, 50⟩ : PositionLimitRow).maxPosition - 30
                | Side.sell => (⟨100, 50⟩ : PositionLimitRow).maxPosition + 30))))
        ∧ (placeOrderService 1 1 (some ⟨100, 50⟩) 30 OType.limit Side.buy 80
            (some 10)).1.status = OStatus.pending
        ∧ (placeOrderService 1 1 (some ⟨100, 50⟩) 30 OType.limit Side.buy 80
            (some 10)).1.filled = 0
        ∧ ((placeOrderService 1 1 (some ⟨100, 50⟩) 30 OType.limit Side.buy 80
            (some 10)).2 = true
          ↔ ((placeOrderService 1 1 (some ⟨100, 50⟩) 30 OType.limit Side.buy 80
              (some 10)).1.quantity : Int) ≠ 80)) :=
  ⟨⟨by decide, by decide⟩,
    c9_position_limit_cap 1 1 ⟨100, 50⟩ 30 OType.limit Side.buy 80 (some 10)
      (by decide) (by decide)⟩

/-- C10 counterexample: the admin start operation does not leave "all
other symbol fields unchanged": besides `trading_halted`,
`settlement_active` and `settlement_price`, it also clears
`settlement_at`. A settled symbol with a non-null `settlement_at`
timestamp loses it on start. -/
theorem c10_counterexample :
    (adminStartSymbol ⟨0, 0, 1, true, true, some 5, some 7⟩).settlementAt = none
      ∧ (⟨0, 0, 1, true, true, some 5, some 7⟩ : SymbolState).settlementAt = some 7 :=
  ⟨rfl, rfl⟩

/-- C10 (amended): the admin start operation sets `trading_halted` to
false and clears the whole settlement state — `settlement_active`,
`settlement_price` *and* `settlement_at` — for every targeted symbol,
while leaving the remaining symbol fields (code, name, tick size) and
the position table unchanged. -/
theorem c10_admin_start (symbols : List SymbolState) (positions : List Position) :
    (adminStartSymbols symbols positions).2 = positions
      ∧ (adminStartSymbols symbols positions).1 = symbols.map adminStartSymbol
      ∧ ∀ s : SymbolState,
          (adminStartSymbol s).tradingHalted = false
          ∧ (adminStartSymbol s).settlementActive = false
          ∧ (adminStartSymbol s).settlementPrice = none
          ∧ (adminStartSymbol s).settlementAt = none
          ∧ (adminStartSymbol s).code = s.code
          ∧ (adminStartSymbol s).name = s.name
          ∧ (adminStartSymbol s).tickSize = s.tickSize :=
  ⟨rfl, rfl, fun _ => ⟨rfl, rfl, rfl, rfl, rfl, rfl, rfl⟩⟩

end CTC
